import Mathlib

/-!
# A contiguous-memory allocator (`mmu.c`, `list.c`)

The allocator keeps two singly linked lists of memory blocks, a free list and
an allocated list, and services allocate / deallocate / coalesce requests under
one of three placement policies (1 = FIFO, 2 = best fit, 3 = worst fit).

## Representation

A C list (`list_t`) is represented by

* `nodes`  : the blocks met when walking `head`, `head->next`, ... up to `NULL`;
* `tail`   : where the `tail` pointer points (see `tail_ptr`);
* `length` : the `length` counter, which the C code maintains by hand and which
  is *not* recomputed from the nodes.

A node that is allocated but never linked from `head` simply does not show up in
`nodes`.  C `int` values are unbounded integers here (signed overflow is
undefined in C, and no operation below wraps).  A write through a `tail` pointer
that is `NULL` or refers to a freed node has no defined result; the functions
that may perform one return `Option`.
-/

namespace Mmu

/-! ## Data model -/

/-- Modelled from the spec: the header `list.h` declaring `block_t` is not part of the
sources; the fields are the ones the code reads and writes (`pid`, `start`, `end`).
The field `end` is written `end_`. -/
structure block_t where
  pid : Int
  start : Int
  end_ : Int
deriving DecidableEq, Repr

/-- Abstract value of the `tail` pointer of a list.
* `null`   : `NULL`;
* `node i` : the `i`-th node (counting from 0) of the walk from `head`;
* `freed`  : a node that was unlinked and released with `free`. -/
inductive tail_ptr where
  | null : tail_ptr
  | node (i : Nat) : tail_ptr
  | freed : tail_ptr
deriving DecidableEq, Repr

/-- Modelled from the spec: the header `list.h` declaring `list_t` is not part of the
sources; the fields are the ones the code uses (`head`, `tail`, `length`). `nodes` is
the walk from `head`. -/
structure list_t where
  nodes : List block_t
  tail : tail_ptr
  length : Int
deriving DecidableEq, Repr

/-- The `tail` pointer after a new node has been linked in at position `k` of the walk
(the nodes at positions `≥ k` move one place to the right). -/
def tail_after_link (t : tail_ptr) (k : Nat) : tail_ptr :=
  match t with
  | tail_ptr.node i => if k ≤ i then tail_ptr.node (i + 1) else tail_ptr.node i
  | t => t

/-- The `tail` pointer after the node at position `k` of the walk has been unlinked
and freed: no function that unlinks a node in the middle of a list updates `tail`. -/
def tail_after_unlink (t : tail_ptr) (k : Nat) : tail_ptr :=
  match t with
  | tail_ptr.node i =>
    if i = k then tail_ptr.freed
    else if k < i then tail_ptr.node (i - 1) else tail_ptr.node i
  | t => t

/-- Block size as the allocator computes it: `end - start + 1`. -/
def block_size (b : block_t) : Int := b.end_ - b.start + 1

/-! ## `list.c` -/

/-- `list_alloc`: the empty list. -/
def list_alloc : list_t := { nodes := [], tail := tail_ptr.null, length := 0 }

/-- `list_length`: reads the counter. -/
def list_length (list : list_t) : Int := list.length

/-- `list_add_to_back`. On a non-empty list the new node is linked with
`list->tail->next = new_node`: everything that followed the tail node is cut off.
No result when `tail` is `NULL` or freed. -/
def list_add_to_back (list : list_t) (blk : block_t) : Option list_t :=
  match list.nodes with
  | [] => some { nodes := [blk], tail := tail_ptr.node 0, length := list.length + 1 }
  | _ :: _ =>
    match list.tail with
    | tail_ptr.node i =>
      if i < list.nodes.length then
        some { nodes := list.nodes.take (i + 1) ++ [blk],
               tail := tail_ptr.node (i + 1),
               length := list.length + 1 }
      else none
    | _ => none

/-- `list_add_to_front`. -/
def list_add_to_front (list : list_t) (blk : block_t) : list_t :=
  match list.nodes with
  | [] => { nodes := [blk], tail := tail_ptr.node 0, length := list.length + 1 }
  | _ :: _ =>
    { nodes := blk :: list.nodes,
      tail := tail_after_link list.tail 0,
      length := list.length + 1 }

/-- The walk `while (curr != NULL && keep curr)` followed by linking the new node
between `prev` and `curr`. -/
def link_after_scan (keep : block_t → Bool) (blk : block_t) : List block_t → List block_t
  | [] => [blk]
  | c :: rest => if keep c then c :: link_after_scan keep blk rest else blk :: c :: rest

/-- Number of nodes the scanning loop steps over. -/
def scan_steps (keep : block_t → Bool) : List block_t → Nat
  | [] => 0
  | c :: rest => if keep c then scan_steps keep rest + 1 else 0

/-- Shared body of `list_add_ascending_by_address` and
`list_add_ascending_by_blocksize`, which differ only in the loop condition.
After the loop the code runs `new_node->next = curr; if (prev) prev->next = new_node;`
and never assigns `list->head`: when the loop stops at the head (`prev == NULL`)
the new node is not reachable from `head`, yet `length` is incremented. -/
def add_ascending (keep : block_t → Bool) (list : list_t) (newblk : block_t) : list_t :=
  match list.nodes with
  | [] => { nodes := [newblk], tail := tail_ptr.node 0, length := list.length + 1 }
  | c :: rest =>
    if keep c then
      { nodes := c :: link_after_scan keep newblk rest,
        tail :=
          if scan_steps keep list.nodes = list.nodes.length then
            tail_ptr.node list.nodes.length
          else tail_after_link list.tail (scan_steps keep list.nodes),
        length := list.length + 1 }
    else
      { nodes := c :: rest, tail := list.tail, length := list.length + 1 }

/-- `list_add_ascending_by_address`: loop condition `curr->blk->start < newblk->start`. -/
def list_add_ascending_by_address (list : list_t) (newblk : block_t) : list_t :=
  add_ascending (fun c => decide (c.start < newblk.start)) list newblk

/-- `list_add_ascending_by_blocksize`: loop condition
`(curr->blk->end - curr->blk->start) < newblk_size` with
`newblk_size = newblk->end - newblk->start`. -/
def list_add_ascending_by_blocksize (list : list_t) (newblk : block_t) : list_t :=
  add_ascending (fun c => decide (c.end_ - c.start < newblk.end_ - newblk.start)) list newblk

/-- `list_add_descending_by_blocksize`: loop condition
`(curr->blk->end - curr->blk->start + 1) >= newblk_size` with
`newblk_size = newblk->end - newblk->start`; here `head` is updated when the loop
stops at the head. -/
def list_add_descending_by_blocksize (list : list_t) (newblk : block_t) : list_t :=
  let keep : block_t → Bool :=
    fun c => decide (c.end_ - c.start + 1 ≥ newblk.end_ - newblk.start)
  match list.nodes with
  | [] => { nodes := [newblk], tail := tail_ptr.node 0, length := list.length + 1 }
  | _ :: _ =>
    { nodes := link_after_scan keep newblk list.nodes,
      tail :=
        if scan_steps keep list.nodes = list.nodes.length then
          tail_ptr.node list.nodes.length
        else tail_after_link list.tail (scan_steps keep list.nodes),
      length := list.length + 1 }

/-- `list_add_to_freelist`: dispatch on the policy; any other policy value leaves the
list untouched. -/
def list_add_to_freelist (freelist : list_t) (block : block_t) (policy : Int) :
    Option list_t :=
  if policy = 1 then list_add_to_back freelist block
  else if policy = 2 then some (list_add_ascending_by_blocksize freelist block)
  else if policy = 3 then some (list_add_descending_by_blocksize freelist block)
  else some freelist

/-- The test of `remove_block_from_freelist`: same `start` and same `end`. -/
def same_interval (block : block_t) (c : block_t) : Bool :=
  decide (c.start = block.start) && decide (c.end_ = block.end_)

/-- `remove_block_from_freelist`: unlinks and frees the first node whose block has the
`start` and `end` of `block`; `tail` is not touched by the code. -/
def remove_block_from_freelist (freelist : list_t) (block : block_t) : list_t :=
  if freelist.nodes.any (same_interval block) then
    { nodes := freelist.nodes.eraseP (same_interval block),
      tail := tail_after_unlink freelist.tail
                (freelist.nodes.findIdx (same_interval block)),
      length := freelist.length - 1 }
  else freelist

/-- `list_remove_from_front`: the removed block (if any) and the list afterwards. -/
def list_remove_from_front (list : list_t) : Option block_t × list_t :=
  match list.nodes with
  | [] => (none, list)
  | b :: rest =>
    (some b,
     { nodes := rest,
       tail := if rest = [] then tail_ptr.null else tail_after_unlink list.tail 0,
       length := list.length - 1 })

/-- The loop of `list_coalese_nodes` on the node sequence, `curr` being the current
node and the argument the nodes after it: an adjacent successor is absorbed
(`curr->blk->end = curr->next->blk->end`) and `curr` stays, otherwise `curr` advances. -/
def coalese_from (curr : block_t) : List block_t → List block_t
  | [] => [curr]
  | nxt :: rest =>
    if curr.end_ + 1 = nxt.start then coalese_from { curr with end_ := nxt.end_ } rest
    else curr :: coalese_from nxt rest

/-- The `tail` pointer along the loop of `list_coalese_nodes`; `pos` is the position of
`curr`. The loop frees the absorbed node and does not update `tail`. -/
def coalese_tail_from (curr : block_t) (pos : Nat) (t : tail_ptr) : List block_t → tail_ptr
  | [] => t
  | nxt :: rest =>
    if curr.end_ + 1 = nxt.start then
      coalese_tail_from { curr with end_ := nxt.end_ } pos (tail_after_unlink t (pos + 1)) rest
    else coalese_tail_from nxt (pos + 1) t rest

/-- `list_coalese_nodes`; `length` is decremented once per absorbed node. -/
def list_coalese_nodes (list : list_t) : list_t :=
  match list.nodes with
  | [] => list
  | h :: t =>
    { nodes := coalese_from h t,
      tail := coalese_tail_from h 0 list.tail t,
      length := list.length - ((h :: t).length - (coalese_from h t).length : Nat) }

/-! ## `mmu.c` -/

/-- The search loop of `allocate_memory`. `i` is the position of the node under
`current`; `best_fit` and `worst_fit` hold the position and block of the node they
point to (`none` for `NULL`). Returns the pair `(best_fit, worst_fit)` at loop exit. -/
def allocate_scan (blocksize policy : Int) :
    List block_t → Nat → Option (Nat × block_t) → Option (Nat × block_t) →
      Option (Nat × block_t) × Option (Nat × block_t)
  | [], _, best_fit, worst_fit => (best_fit, worst_fit)
  | current :: rest, i, best_fit, worst_fit =>
    if block_size current ≥ blocksize then
      if policy = 1 then (some (i, current), worst_fit)
      else if policy = 2 then
        match best_fit with
        | none => allocate_scan blocksize policy rest (i + 1) (some (i, current)) worst_fit
        | some (j, b) =>
          if block_size current ≥ blocksize ∧ block_size current < block_size b then
            allocate_scan blocksize policy rest (i + 1) (some (i, current)) worst_fit
          else allocate_scan blocksize policy rest (i + 1) (some (j, b)) worst_fit
      else if policy = 3 then
        match worst_fit with
        | none => allocate_scan blocksize policy rest (i + 1) best_fit (some (i, current))
        | some (j, b) =>
          if block_size current > block_size b then
            allocate_scan blocksize policy rest (i + 1) best_fit (some (i, current))
          else allocate_scan blocksize policy rest (i + 1) best_fit (some (j, b))
      else allocate_scan blocksize policy rest (i + 1) best_fit worst_fit
    else allocate_scan blocksize policy rest (i + 1) best_fit worst_fit

/-- Value of `selected_block` in `allocate_memory`:
`(policy == 3) ? worst_fit : best_fit` after the search loop. -/
def selected_block (freelist : list_t) (blocksize policy : Int) : Option (Nat × block_t) :=
  let r := allocate_scan blocksize policy freelist.nodes 0 none none
  if policy = 3 then r.2 else r.1

/-- `allocate_memory`: the free list and the allocated list afterwards.
In the fragment branch the assignment
`fragment->start = selected_block->blk->start = new_block->end + 1` also rewrites the
selected block in place, before the fragment is inserted and before
`remove_block_from_freelist` is called with the (rewritten) selected block. -/
def allocate_memory (freelist alloclist : list_t) (pid blocksize policy : Int) :
    Option (list_t × list_t) :=
  match selected_block freelist blocksize policy with
  | none => some (freelist, alloclist)
  | some (i, sel) =>
    let new_block : block_t := { sel with pid := pid, end_ := sel.start + blocksize - 1 }
    let alloclist1 := list_add_ascending_by_address alloclist new_block
    if new_block.end_ < sel.end_ then
      let sel1 : block_t := { sel with start := new_block.end_ + 1 }
      let fragment : block_t := { pid := 0, start := new_block.end_ + 1, end_ := sel.end_ }
      let freelist1 : list_t := { freelist with nodes := freelist.nodes.set i sel1 }
      match list_add_to_freelist freelist1 fragment policy with
      | none => none
      | some freelist2 => some (remove_block_from_freelist freelist2 sel1, alloclist1)
    else some (remove_block_from_freelist freelist sel, alloclist1)

/-- `deallocate_memory`: the allocated list and the free list afterwards. The block
of the first node owned by `pid` is handed to `list_add_to_freelist` and then gets
`pid = 0` (the insertion never looks at `pid`, so the block is inserted with owner
0 here); the node is unlinked from the allocated list and freed. -/
def deallocate_memory (alloclist freelist : list_t) (pid policy : Int) :
    Option (list_t × list_t) :=
  let k := alloclist.nodes.findIdx (fun c => decide (c.pid = pid))
  match alloclist.nodes.get? k with
  | none => some (alloclist, freelist)
  | some block_to_deallocate =>
    match list_add_to_freelist freelist { block_to_deallocate with pid := 0 } policy with
    | none => none
    | some freelist1 =>
      some ({ nodes := alloclist.nodes.eraseIdx k,
              tail := tail_after_unlink alloclist.tail k,
              length := alloclist.length - 1 },
            freelist1)

/-- The first loop of `coalese_memory`: every block taken off the front of `list`
(`list_remove_from_front`) is inserted into `temp_list` by
`list_add_ascending_by_address`. The first argument is the node sequence still in
`list`. -/
def coalese_drain : List block_t → list_t → list_t
  | [], temp_list => temp_list
  | blk :: rest, temp_list =>
    coalese_drain rest (list_add_ascending_by_address temp_list blk)

/-- `coalese_memory`: the returned `temp_list`. -/
def coalese_memory (list : list_t) : list_t :=
  list_coalese_nodes (coalese_drain list.nodes list_alloc)

/-! ## The request stream of `main` -/

/-- One request of the input: allocate `size` for `pid`, deallocate `pid`, or
coalesce. -/
inductive request where
  | allocate (pid size : Int) : request
  | deallocate (pid : Int) : request
  | coalesce : request
deriving DecidableEq, Repr

/-- State of the simulation: `(FREE_LIST, ALLOC_LIST)`. -/
abbrev mmu_state := list_t × list_t

/-- The state `main` starts from: the whole partition `[0, N-1]` as one free block
(added with `list_add_to_front`), nothing allocated. `main` sets `start = 0` and
`end = PARTITION_SIZE + start - 1` and leaves `pid` of that block unset; it is taken
to be 0, the owner tag of a free block. -/
def initial_state (N : Int) : mmu_state :=
  (list_add_to_front list_alloc { pid := 0, start := 0, end_ := N + 0 - 1 }, list_alloc)

/-- One iteration of the request loop of `main`. -/
def step (policy : Int) (st : mmu_state) : request → Option mmu_state
  | request.allocate pid size => allocate_memory st.1 st.2 pid size policy
  | request.deallocate pid =>
    match deallocate_memory st.2 st.1 pid policy with
    | none => none
    | some (alloclist, freelist) => some (freelist, alloclist)
  | request.coalesce => some (coalese_memory st.1, st.2)

/-- The request loop of `main`. -/
def run (policy : Int) : mmu_state → List request → Option mmu_state
  | st, [] => some st
  | st, r :: rs =>
    match step policy st r with
    | none => none
    | some st1 => run policy st1 rs

/-- Sum of the block sizes of a node sequence. -/
def total_size (l : List block_t) : Int := (l.map block_size).sum

/-! ## Predicates used in the statements -/

/-- Address `x` lies in the interval `[start, end]` of `b`. -/
def covers (x : Int) (b : block_t) : Bool := decide (b.start ≤ x) && decide (x ≤ b.end_)

/-- Number of blocks of `l` whose interval contains the address `x`. -/
def cover (x : Int) (l : List block_t) : Nat := l.countP (covers x)

/-- Every block of `l` has `start ≤ end`. -/
def well_formed (l : List block_t) : Prop := ∀ b ∈ l, b.start ≤ b.end_

/-- The invariant carried along a run: no address lies in two blocks of the two lists
taken together, and every block has `start ≤ end`. -/
def disjoint_invariant (st : mmu_state) : Prop :=
  (∀ x, cover x (st.1.nodes ++ st.2.nodes) ≤ 1) ∧ well_formed (st.1.nodes ++ st.2.nodes)

/-- The requested size of an allocation request is at least 1 (nothing is asked of the
other requests). -/
def request_size_pos : request → Bool
  | request.allocate _ size => decide (1 ≤ size)
  | _ => true

/-! ## The search loop of `allocate_memory` -/

/-- Policy 1: the loop leaves `worst_fit` alone and stops at the first qualifying node. -/
theorem allocate_scan_first (blocksize : Int) (l : List block_t) (i : Nat)
    (w : Option (Nat × block_t)) :
    allocate_scan blocksize 1 l i none w =
      (((l.get? (l.findIdx (fun c => decide (blocksize ≤ block_size c)))).map
          (fun c => (i + l.findIdx (fun c => decide (blocksize ≤ block_size c)), c))), w) := by
  induction l generalizing i with
  | nil => simp [allocate_scan]
  | cons c rest ih =>
    by_cases hq : blocksize ≤ block_size c
    · simp [allocate_scan, hq, List.findIdx_cons]
    · simp only [allocate_scan, ge_iff_le, hq, if_false, ih, List.findIdx_cons, decide_False,
        cond_false, List.get?_cons_succ]
      simp [Nat.add_assoc, Nat.add_comm 1]

/-- Invariant of the best-fit search loop (policy 2). -/
theorem allocate_scan_best (blocksize : Int) (l : List block_t) :
    ∀ (i : Nat) (best w : Option (Nat × block_t)),
      (∀ j0 b0, best = some (j0, b0) → j0 < i) →
      (allocate_scan blocksize 2 l i best w).2 = w ∧
      ((allocate_scan blocksize 2 l i best w).1 = best ∨
        ∃ k c, (allocate_scan blocksize 2 l i best w).1 = some (i + k, c) ∧
          l.get? k = some c ∧ blocksize ≤ block_size c) ∧
      (∀ j0 b0, best = some (j0, b0) →
        ∃ i1 c, (allocate_scan blocksize 2 l i best w).1 = some (i1, c) ∧
          ((i1 = j0 ∧ c = b0) ∨ block_size c < block_size b0)) ∧
      (∀ k c1, l.get? k = some c1 → blocksize ≤ block_size c1 →
        ∃ i1 c, (allocate_scan blocksize 2 l i best w).1 = some (i1, c) ∧
          block_size c ≤ block_size c1 ∧ (block_size c1 = block_size c → i1 ≤ i + k)) := by
  induction l with
  | nil =>
    intro i best w _
    refine ⟨rfl, Or.inl rfl, ?_, ?_⟩
    · intro j0 b0 h; exact ⟨j0, b0, by simp [allocate_scan, h], Or.inl ⟨rfl, rfl⟩⟩
    · intro k c1 h; simp at h
  | cons c rest ih =>
    intro i best w hb
    by_cases hq : blocksize ≤ block_size c
    · -- the current node qualifies
      obtain ⟨nb, hnb, heq, hor, hmono⟩ : ∃ nb : Nat × block_t, nb.1 < i + 1 ∧
          allocate_scan blocksize 2 (c :: rest) i best w
            = allocate_scan blocksize 2 rest (i + 1) (some nb) w ∧
          (nb = (i, c) ∨ (best = some nb ∧ block_size nb.2 ≤ block_size c)) ∧
          (∀ j0 b0, best = some (j0, b0) →
            (nb.1 = j0 ∧ nb.2 = b0) ∨ block_size nb.2 < block_size b0) := by
        match hbest : best with
        | none =>
          exact ⟨(i, c), by simp, by simp [allocate_scan, hq], Or.inl rfl,
            by intro j0 b0 h; cases h⟩
        | some (j, b) =>
          have hj : j < i := hb j b rfl
          by_cases hlt : block_size c < block_size b
          · exact ⟨(i, c), by simp, by simp [allocate_scan, hq, hlt], Or.inl rfl,
              by intro j0 b0 h; cases h; exact Or.inr hlt⟩
          · exact ⟨(j, b), by simp; omega, by simp [allocate_scan, hq, hlt],
              Or.inr ⟨rfl, by simpa using hlt⟩,
              by intro j0 b0 h; cases h; exact Or.inl ⟨rfl, rfl⟩⟩
      · 
        obtain ⟨h1, h2, h3, h4⟩ := ih (i + 1) (some nb) w
          (by intro j0 b0 h; cases h; exact hnb)
        rw [heq]
        refine ⟨h1, ?_, ?_, ?_⟩
        · rcases h2 with h2 | ⟨k, c2, h2, hk, hc2⟩
          · rcases hor with hor | ⟨hor, _⟩
            · right; exact ⟨0, c, by rw [h2, hor]; rfl, rfl, hq⟩
            · left; rw [h2, hor]
          · right
            exact ⟨k + 1, c2, by rw [h2]; congr 2; omega, by simpa using hk, hc2⟩
        · intro j0 b0 hbest
          obtain ⟨i1, c2, hr, hcase⟩ := h3 nb.1 nb.2 rfl
          refine ⟨i1, c2, hr, ?_⟩
          rcases hmono j0 b0 hbest with ⟨e1, e2⟩ | hlt
          · rcases hcase with ⟨e3, e4⟩ | hlt2
            · left; exact ⟨e3.trans e1, e4.trans e2⟩
            · right; rw [← e2]; exact hlt2
          · right
            rcases hcase with ⟨_, e4⟩ | hlt2
            · rw [e4]; exact hlt
            · exact lt_trans hlt2 hlt
        · intro k c1 hk hc1
          cases k with
          | zero =>
            simp at hk; subst hk
            obtain ⟨i1, c2, hr, hcase⟩ := h3 nb.1 nb.2 rfl
            refine ⟨i1, c2, hr, ?_, ?_⟩
            · rcases hcase with ⟨_, e4⟩ | hlt2
              · rcases hor with hor | ⟨_, hle⟩
                · rw [e4, hor]
                · rw [e4]; exact hle
              · rcases hor with hor | ⟨_, hle⟩
                · rw [hor] at hlt2; exact le_of_lt hlt2
                · exact le_of_lt (lt_of_lt_of_le hlt2 hle)
            · intro htie
              rcases hcase with ⟨e3, _⟩ | hlt2
              · omega
              · rcases hor with hor | ⟨_, hle⟩
                · rw [hor] at hlt2; simp at hlt2; omega
                · omega
          | succ k =>
            obtain ⟨i1, c2, hr, hle, htie⟩ := h4 k c1 (by simpa using hk) hc1
            exact ⟨i1, c2, hr, hle, fun h => by have := htie h; omega⟩
    · -- the current node is too small
      have heq : allocate_scan blocksize 2 (c :: rest) i best w
          = allocate_scan blocksize 2 rest (i + 1) best w := by
        simp [allocate_scan, hq]
      obtain ⟨h1, h2, h3, h4⟩ := ih (i + 1) best w
        (by intro j0 b0 h; have := hb j0 b0 h; omega)
      rw [heq]
      refine ⟨h1, ?_, h3, ?_⟩
      · rcases h2 with h2 | ⟨k, c2, h2, hk, hc2⟩
        · exact Or.inl h2
        · right
          exact ⟨k + 1, c2, by rw [h2]; congr 2; omega, by simpa using hk, hc2⟩
      · intro k c1 hk hc1
        cases k with
        | zero => simp at hk; subst hk; exact absurd hc1 hq
        | succ k =>
          obtain ⟨i1, c2, hr, hle, htie⟩ := h4 k c1 (by simpa using hk) hc1
          exact ⟨i1, c2, hr, hle, fun h => by have := htie h; omega⟩

/-- Invariant of the worst-fit search loop (policy 3). -/
theorem allocate_scan_worst (blocksize : Int) (l : List block_t) :
    ∀ (i : Nat) (b w : Option (Nat × block_t)),
      (∀ j0 b0, w = some (j0, b0) → j0 < i) →
      (allocate_scan blocksize 3 l i b w).1 = b ∧
      ((allocate_scan blocksize 3 l i b w).2 = w ∨
        ∃ k c, (allocate_scan blocksize 3 l i b w).2 = some (i + k, c) ∧
          l.get? k = some c ∧ blocksize ≤ block_size c) ∧
      (∀ j0 b0, w = some (j0, b0) →
        ∃ i1 c, (allocate_scan blocksize 3 l i b w).2 = some (i1, c) ∧
          ((i1 = j0 ∧ c = b0) ∨ block_size b0 < block_size c)) ∧
      (∀ k c1, l.get? k = some c1 → blocksize ≤ block_size c1 →
        ∃ i1 c, (allocate_scan blocksize 3 l i b w).2 = some (i1, c) ∧
          block_size c1 ≤ block_size c ∧ (block_size c1 = block_size c → i1 ≤ i + k)) := by
  induction l with
  | nil =>
    intro i b w _
    refine ⟨rfl, Or.inl rfl, ?_, ?_⟩
    · intro j0 b0 h; exact ⟨j0, b0, by simp [allocate_scan, h], Or.inl ⟨rfl, rfl⟩⟩
    · intro k c1 h; simp at h
  | cons c rest ih =>
    intro i b w hw
    by_cases hq : blocksize ≤ block_size c
    · -- the current node qualifies
      obtain ⟨nw, hnw, heq, hor, hmono⟩ : ∃ nw : Nat × block_t, nw.1 < i + 1 ∧
          allocate_scan blocksize 3 (c :: rest) i b w
            = allocate_scan blocksize 3 rest (i + 1) b (some nw) ∧
          (nw = (i, c) ∨ (w = some nw ∧ block_size c ≤ block_size nw.2)) ∧
          (∀ j0 b0, w = some (j0, b0) →
            (nw.1 = j0 ∧ nw.2 = b0) ∨ block_size b0 < block_size nw.2) := by
        match hworst : w with
        | none =>
          exact ⟨(i, c), by simp, by simp [allocate_scan, hq], Or.inl rfl,
            by intro j0 b0 h; cases h⟩
        | some (j, d) =>
          have hj : j < i := hw j d rfl
          by_cases hlt : block_size d < block_size c
          · exact ⟨(i, c), by simp, by simp [allocate_scan, hq, hlt], Or.inl rfl,
              by intro j0 b0 h; cases h; exact Or.inr hlt⟩
          · exact ⟨(j, d), by simp; omega, by simp [allocate_scan, hq, hlt],
              Or.inr ⟨rfl, by simpa using hlt⟩,
              by intro j0 b0 h; cases h; exact Or.inl ⟨rfl, rfl⟩⟩
      obtain ⟨h1, h2, h3, h4⟩ := ih (i + 1) b (some nw)
        (by intro j0 b0 h; cases h; exact hnw)
      rw [heq]
      refine ⟨h1, ?_, ?_, ?_⟩
      · rcases h2 with h2 | ⟨k, c2, h2, hk, hc2⟩
        · rcases hor with hor | ⟨hor, _⟩
          · right; exact ⟨0, c, by rw [h2, hor]; rfl, rfl, hq⟩
          · left; rw [h2, hor]
        · right
          exact ⟨k + 1, c2, by rw [h2]; congr 2; omega, by simpa using hk, hc2⟩
      · intro j0 b0 hworst
        obtain ⟨i1, c2, hr, hcase⟩ := h3 nw.1 nw.2 rfl
        refine ⟨i1, c2, hr, ?_⟩
        rcases hmono j0 b0 hworst with ⟨e1, e2⟩ | hlt
        · rcases hcase with ⟨e3, e4⟩ | hlt2
          · left; exact ⟨e3.trans e1, e4.trans e2⟩
          · right; rw [← e2]; exact hlt2
        · right
          rcases hcase with ⟨_, e4⟩ | hlt2
          · rw [e4]; exact hlt
          · exact lt_trans hlt hlt2
      · intro k c1 hk hc1
        cases k with
        | zero =>
          simp at hk; subst hk
          obtain ⟨i1, c2, hr, hcase⟩ := h3 nw.1 nw.2 rfl
          refine ⟨i1, c2, hr, ?_, ?_⟩
          · rcases hcase with ⟨_, e4⟩ | hlt2
            · rcases hor with hor | ⟨_, hle⟩
              · rw [e4, hor]
              · rw [e4]; exact hle
            · rcases hor with hor | ⟨_, hle⟩
              · rw [hor] at hlt2; exact le_of_lt hlt2
              · exact le_of_lt (lt_of_le_of_lt hle hlt2)
          · intro htie
            rcases hcase with ⟨e3, _⟩ | hlt2
            · omega
            · rcases hor with hor | ⟨_, hle⟩
              · rw [hor] at hlt2; simp at hlt2; omega
              · omega
        | succ k =>
          obtain ⟨i1, c2, hr, hle, htie⟩ := h4 k c1 (by simpa using hk) hc1
          exact ⟨i1, c2, hr, hle, fun h => by have := htie h; omega⟩
    · -- the current node is too small
      have heq : allocate_scan blocksize 3 (c :: rest) i b w
          = allocate_scan blocksize 3 rest (i + 1) b w := by
        simp [allocate_scan, hq]
      obtain ⟨h1, h2, h3, h4⟩ := ih (i + 1) b w
        (by intro j0 b0 h; have := hw j0 b0 h; omega)
      rw [heq]
      refine ⟨h1, ?_, h3, ?_⟩
      · rcases h2 with h2 | ⟨k, c2, h2, hk, hc2⟩
        · exact Or.inl h2
        · right
          exact ⟨k + 1, c2, by rw [h2]; congr 2; omega, by simpa using hk, hc2⟩
      · intro k c1 hk hc1
        cases k with
        | zero => simp at hk; subst hk; exact absurd hc1 hq
        | succ k =>
          obtain ⟨i1, c2, hr, hle, htie⟩ := h4 k c1 (by simpa using hk) hc1
          exact ⟨i1, c2, hr, hle, fun h => by have := htie h; omega⟩


/-- When no node qualifies the search loop changes neither `best_fit` nor `worst_fit`,
whatever the policy. -/
theorem allocate_scan_none (blocksize policy : Int) (l : List block_t)
    (h : ∀ c ∈ l, block_size c < blocksize) (i : Nat) (b w : Option (Nat × block_t)) :
    allocate_scan blocksize policy l i b w = (b, w) := by
  induction l generalizing i with
  | nil => rfl
  | cons c rest ih =>
    have hc : ¬ blocksize ≤ block_size c := not_le.mpr (h c (List.mem_cons_self _ _))
    simp only [allocate_scan, ge_iff_le, hc, if_false]
    exact ih (fun d hd => h d (List.mem_cons_of_mem _ hd)) (i + 1)

/-! ### Which nodes an operation can leave in a list -/

theorem link_after_scan_perm (keep : block_t → Bool) (b : block_t) (l : List block_t) :
    (link_after_scan keep b l).Perm (b :: l) := by
  induction l with
  | nil => exact List.Perm.refl _
  | cons c rest ih =>
    by_cases hk : keep c = true
    · simp only [link_after_scan, hk, if_true]
      exact (ih.cons c).trans (List.Perm.swap b c rest)
    · simp [link_after_scan, hk]

theorem add_ascending_subperm (keep : block_t → Bool) (list : list_t) (b : block_t) :
    List.Subperm (add_ascending keep list b).nodes (b :: list.nodes) := by
  unfold add_ascending
  split
  · next h => rw [h]
  · next c rest h =>
    rw [h]
    split
    · exact (((link_after_scan_perm keep b rest).cons c).trans (List.Perm.swap b c rest)).subperm
    · exact (List.sublist_cons_self b (c :: rest)).subperm

theorem list_add_descending_by_blocksize_perm (list : list_t) (b : block_t) :
    (list_add_descending_by_blocksize list b).nodes.Perm (b :: list.nodes) := by
  unfold list_add_descending_by_blocksize
  split
  · next h => rw [h]
  · next c rest h => exact link_after_scan_perm _ b _

theorem list_add_to_back_subperm (list list1 : list_t) (b : block_t)
    (h : list_add_to_back list b = some list1) :
    List.Subperm list1.nodes (b :: list.nodes) := by
  unfold list_add_to_back at h
  split at h
  · next hn => cases h; rw [hn]
  · next c rest hn =>
    split at h
    · next i ht =>
      split at h
      · cases h
        exact (List.perm_append_singleton b _).subperm.trans
          ((List.subperm_cons b).mpr (List.take_sublist _ _).subperm)
      · cases h
    · cases h

theorem list_add_to_freelist_subperm (freelist list1 : list_t) (b : block_t) (policy : Int)
    (h : list_add_to_freelist freelist b policy = some list1) :
    List.Subperm list1.nodes (b :: freelist.nodes) := by
  unfold list_add_to_freelist at h
  split at h
  · exact list_add_to_back_subperm _ _ _ h
  · split at h
    · cases h; exact add_ascending_subperm _ _ _
    · split at h
      · cases h; exact (list_add_descending_by_blocksize_perm _ _).subperm
      · cases h; exact (List.sublist_cons_self b _).subperm

theorem remove_block_from_freelist_nodes (freelist : list_t) (block : block_t) :
    (remove_block_from_freelist freelist block).nodes
      = freelist.nodes.eraseP (same_interval block) := by
  unfold remove_block_from_freelist
  split
  · rfl
  · next h =>
    rw [List.eraseP_of_forall_not]
    intro a ha hp
    exact h (List.any_eq_true.mpr ⟨a, ha, hp⟩)

theorem coalese_drain_subperm (l : List block_t) (temp_list : list_t) :
    List.Subperm (coalese_drain l temp_list).nodes (l ++ temp_list.nodes) := by
  induction l generalizing temp_list with
  | nil => exact List.Subperm.refl _
  | cons b rest ih =>
    refine (ih (list_add_ascending_by_address temp_list b)).trans ?_
    refine ((List.subperm_append_left rest).mpr (add_ascending_subperm _ temp_list b)).trans ?_
    exact (List.perm_middle).subperm

/-! ### Address coverage -/

theorem cover_cons (x : Int) (b : block_t) (l : List block_t) :
    cover x (b :: l) = cover x l + (if covers x b then 1 else 0) := by
  simp [cover, List.countP_cons]

theorem cover_append (x : Int) (l1 l2 : List block_t) :
    cover x (l1 ++ l2) = cover x l1 + cover x l2 := by
  simp [cover, List.countP_append]

theorem cover_le_of_subperm (x : Int) {l1 l2 : List block_t} (h : List.Subperm l1 l2) :
    cover x l1 ≤ cover x l2 := List.Subperm.countP_le _ h

theorem covers_of_same_interval (x : Int) (t a b : block_t)
    (ha : same_interval t a = true) (hb : same_interval t b = true) :
    covers x a = covers x b := by
  simp only [same_interval, Bool.and_eq_true, decide_eq_true_eq] at ha hb
  simp [covers, ha.1, ha.2, hb.1, hb.2]

theorem cover_set (x : Int) (l : List block_t) (i : Nat) (old v : block_t)
    (h : l.get? i = some old) :
    cover x (l.set i v) + (if covers x old then 1 else 0)
      = cover x l + (if covers x v then 1 else 0) := by
  induction l generalizing i with
  | nil => simp at h
  | cons c rest ih =>
    cases i with
    | zero =>
      simp at h; subst h
      simp only [List.set_cons_zero, cover_cons]
      omega
    | succ i =>
      simp only [List.set_cons_succ, cover_cons]
      have := ih i (by simpa using h)
      omega

theorem cover_eraseIdx (x : Int) (l : List block_t) (i : Nat) (old : block_t)
    (h : l.get? i = some old) :
    cover x (l.eraseIdx i) + (if covers x old then 1 else 0) = cover x l := by
  induction l generalizing i with
  | nil => simp at h
  | cons c rest ih =>
    cases i with
    | zero => simp at h; subst h; simp [cover_cons]
    | succ i =>
      simp only [List.eraseIdx_cons_succ, cover_cons]
      have := ih i (by simpa using h)
      omega

/-- Removing the first node with the interval of `t` from a list that holds at most the
nodes of `l1` plus one more node `f` with that interval leaves no more coverage than
`l1` has. -/
theorem cover_eraseP_le (x : Int) (t f : block_t) (l1 l2 : List block_t)
    (hsub : List.Subperm l2 (f :: l1)) (hf : same_interval t f = true) :
    cover x (l2.eraseP (same_interval t)) ≤ cover x l1 := by
  by_cases hex : ∃ y ∈ l2, same_interval t y = true
  · obtain ⟨y, hy, hpy⟩ := hex
    obtain ⟨a, la, lb, -, hpa, hl2, her⟩ := List.exists_of_eraseP hy hpy
    have h1 : cover x l2 = cover x (l2.eraseP (same_interval t)) + (if covers x a then 1 else 0) := by
      rw [her, hl2]
      simp only [cover_append, cover_cons]
      omega
    have h2 := cover_le_of_subperm x hsub
    rw [cover_cons, covers_of_same_interval x t f a hf hpa] at h2
    omega
  · have hno : ∀ y ∈ l2, ¬ same_interval t y = true := fun y hy hp => hex ⟨y, hy, hp⟩
    rw [List.eraseP_of_forall_not hno]
    have e1 : cover x l2 = l2.countP (fun y => covers x y && !same_interval t y) := by
      unfold cover
      apply List.countP_congr
      intro y hy
      have := hno y hy
      simp [this]
    have e2 := List.Subperm.countP_le (fun y => covers x y && !same_interval t y) hsub
    rw [List.countP_cons] at e2
    simp only [hf, Bool.not_true, Bool.and_false, Bool.false_eq_true, if_false,
      add_zero] at e2
    have e3 : l1.countP (fun y => covers x y && !same_interval t y) ≤ cover x l1 := by
      unfold cover
      apply List.countP_mono_left
      intro y _ hy
      simp only [Bool.and_eq_true] at hy
      exact hy.1
    omega

theorem cover_coalese_from (x : Int) (rest : List block_t) :
    ∀ curr : block_t, cover x (coalese_from curr rest) ≤ cover x (curr :: rest) := by
  induction rest with
  | nil => intro curr; exact le_refl _
  | cons nxt rest ih =>
    intro curr
    by_cases hadj : curr.end_ + 1 = nxt.start
    · simp only [coalese_from, hadj, if_true]
      refine (ih _).trans ?_
      simp only [cover_cons]
      have : (if covers x { curr with end_ := nxt.end_ } then 1 else 0)
          ≤ (if covers x nxt then 1 else 0) + (if covers x curr then 1 else 0) := by
        simp only [covers, Bool.and_eq_true, decide_eq_true_eq]
        split_ifs <;> omega
      omega
    · simp only [coalese_from, hadj, if_false, cover_cons]
      have := ih nxt
      simp only [cover_cons] at this
      omega

theorem well_formed_coalese_from (rest : List block_t) :
    ∀ curr : block_t, well_formed (curr :: rest) → well_formed (coalese_from curr rest) := by
  induction rest with
  | nil => intro curr h; exact h
  | cons nxt rest ih =>
    intro curr h
    have hc : curr.start ≤ curr.end_ := h curr (by simp)
    have hn : nxt.start ≤ nxt.end_ := h nxt (by simp)
    have hr : ∀ b ∈ rest, b.start ≤ b.end_ := fun b hb => h b (by simp [hb])
    by_cases hadj : curr.end_ + 1 = nxt.start
    · simp only [coalese_from, hadj, if_true]
      apply ih
      intro b hb
      rcases List.mem_cons.mp hb with rfl | hb
      · show curr.start ≤ nxt.end_
        omega
      · exact hr b hb
    · simp only [coalese_from, hadj, if_false]
      intro b hb
      rcases List.mem_cons.mp hb with rfl | hb
      · exact hc
      · exact ih nxt (fun d hd => by
          rcases List.mem_cons.mp hd with rfl | hd
          · exact hn
          · exact hr d hd) b hb

/-! ### The selected node -/

/-- Whatever the policy, a pointer left in `best_fit` or `worst_fit` by the search loop
is either the one it held on entry or points to a node of the list whose block
qualifies. -/
theorem allocate_scan_sound (blocksize policy : Int) (l : List block_t) :
    ∀ (i : Nat) (b w : Option (Nat × block_t)),
      (∀ j c, (allocate_scan blocksize policy l i b w).1 = some (j, c) →
        b = some (j, c) ∨ ∃ k, j = i + k ∧ l.get? k = some c ∧ blocksize ≤ block_size c) ∧
      (∀ j c, (allocate_scan blocksize policy l i b w).2 = some (j, c) →
        w = some (j, c) ∨ ∃ k, j = i + k ∧ l.get? k = some c ∧ blocksize ≤ block_size c) := by
  induction l with
  | nil => intro i b w; exact ⟨fun j c h => Or.inl h, fun j c h => Or.inl h⟩
  | cons cur rest ih =>
    intro i b w
    have shift : ∀ (b1 w1 : Option (Nat × block_t)),
        (b1 = b ∨ (b1 = some (i, cur) ∧ blocksize ≤ block_size cur)) →
        (w1 = w ∨ (w1 = some (i, cur) ∧ blocksize ≤ block_size cur)) →
        (∀ j c, (allocate_scan blocksize policy rest (i + 1) b1 w1).1 = some (j, c) →
          b = some (j, c) ∨
            ∃ k, j = i + k ∧ (cur :: rest).get? k = some c ∧ blocksize ≤ block_size c) ∧
        (∀ j c, (allocate_scan blocksize policy rest (i + 1) b1 w1).2 = some (j, c) →
          w = some (j, c) ∨
            ∃ k, j = i + k ∧ (cur :: rest).get? k = some c ∧ blocksize ≤ block_size c) := by
      intro b1 w1 hb1 hw1
      obtain ⟨ihb, ihw⟩ := ih (i + 1) b1 w1
      constructor
      · intro j c h
        rcases ihb j c h with h1 | ⟨k, hj, hk, hq⟩
        · rcases hb1 with e | ⟨e, hq⟩
          · left; rw [← e]; exact h1
          · rw [e] at h1; cases h1
            right; exact ⟨0, rfl, rfl, hq⟩
        · right; exact ⟨k + 1, by omega, by simpa using hk, hq⟩
      · intro j c h
        rcases ihw j c h with h1 | ⟨k, hj, hk, hq⟩
        · rcases hw1 with e | ⟨e, hq⟩
          · left; rw [← e]; exact h1
          · rw [e] at h1; cases h1
            right; exact ⟨0, rfl, rfl, hq⟩
        · right; exact ⟨k + 1, by omega, by simpa using hk, hq⟩
    unfold allocate_scan
    split
    · next hq =>
      have hq1 : blocksize ≤ block_size cur := hq
      split
      · -- policy 1: break
        constructor
        · intro j c h
          simp only [Option.some.injEq, Prod.mk.injEq] at h
          obtain ⟨rfl, rfl⟩ := h
          right; exact ⟨0, rfl, rfl, hq1⟩
        · intro j c h; exact Or.inl h
      · split
        · split
          · exact shift _ _ (Or.inr ⟨rfl, hq1⟩) (Or.inl rfl)
          · split
            · exact shift _ _ (Or.inr ⟨rfl, hq1⟩) (Or.inl rfl)
            · exact shift _ _ (Or.inl rfl) (Or.inl rfl)
        · split
          · split
            · exact shift _ _ (Or.inl rfl) (Or.inr ⟨rfl, hq1⟩)
            · split
              · exact shift _ _ (Or.inl rfl) (Or.inr ⟨rfl, hq1⟩)
              · exact shift _ _ (Or.inl rfl) (Or.inl rfl)
          · exact shift _ _ (Or.inl rfl) (Or.inl rfl)
    · exact shift _ _ (Or.inl rfl) (Or.inl rfl)

/-- The node `allocate_memory` selects is a node of the free list and its block has at
least the requested size. -/
theorem selected_block_sound (freelist : list_t) (blocksize policy : Int) (i : Nat)
    (sel : block_t) (h : selected_block freelist blocksize policy = some (i, sel)) :
    freelist.nodes.get? i = some sel ∧ blocksize ≤ block_size sel := by
  obtain ⟨hb, hw⟩ := allocate_scan_sound blocksize policy freelist.nodes 0 none none
  unfold selected_block at h
  simp only at h
  split at h
  · rcases hw i sel h with h1 | ⟨k, hj, hk, hq⟩
    · cases h1
    · simp only [zero_add] at hj; subst hj; exact ⟨hk, hq⟩
  · rcases hb i sel h with h1 | ⟨k, hj, hk, hq⟩
    · cases h1
    · simp only [zero_add] at hj; subst hj; exact ⟨hk, hq⟩

/-! ### The operations never add coverage -/

theorem cover_eraseP_of_mem (x : Int) (t y : block_t) (l : List block_t)
    (hy : y ∈ l) (hpy : same_interval t y = true) :
    cover x (l.eraseP (same_interval t)) + (if covers x y then 1 else 0) = cover x l := by
  obtain ⟨a, la, lb, -, hpa, hl, her⟩ := List.exists_of_eraseP hy hpy
  rw [her, hl, covers_of_same_interval x t y a hpy hpa]
  simp only [cover_append, cover_cons]
  omega

theorem same_interval_self (t : block_t) : same_interval t t = true := by
  simp [same_interval]

theorem cover_allocate_memory (freelist alloclist freelist1 alloclist1 : list_t)
    (pid blocksize policy : Int) (hbs : 1 ≤ blocksize)
    (h : allocate_memory freelist alloclist pid blocksize policy
      = some (freelist1, alloclist1)) (x : Int) :
    cover x (freelist1.nodes ++ alloclist1.nodes)
      ≤ cover x (freelist.nodes ++ alloclist.nodes) := by
  unfold allocate_memory at h
  split at h
  · cases h; exact le_refl _
  · next i sel hsel =>
    obtain ⟨hget, hq⟩ := selected_block_sound freelist blocksize policy i sel hsel
    have hA := cover_le_of_subperm x (add_ascending_subperm
      (fun c => decide (c.start < sel.start)) alloclist
      { sel with pid := pid, end_ := sel.start + blocksize - 1 })
    rw [cover_cons] at hA
    unfold block_size at hq
    simp only at h
    split at h
    · next hfrag =>
      split at h
      · cases h
      · next freelist2 hadd =>
        cases h
        have hsub := list_add_to_freelist_subperm _ _ _ _ hadd
        have h1 := cover_eraseP_le x
          { sel with start := sel.start + blocksize - 1 + 1 }
          { pid := 0, start := sel.start + blocksize - 1 + 1, end_ := sel.end_ }
          _ _ hsub (by simp [same_interval])
        have h2 := cover_set x freelist.nodes i sel
          { sel with start := sel.start + blocksize - 1 + 1 } hget
        rw [cover_append, remove_block_from_freelist_nodes, cover_append]
        have h3 : (if covers x { sel with pid := pid, end_ := sel.start + blocksize - 1 }
              then 1 else 0)
            + (if covers x { sel with start := sel.start + blocksize - 1 + 1 } then 1 else 0)
            ≤ (if covers x sel then 1 else 0) := by
          simp only [covers, Bool.and_eq_true, decide_eq_true_eq]
          split_ifs <;> omega
        unfold list_add_ascending_by_address
        simp only at h1 h2 hA ⊢
        omega
    · next hfrag =>
      cases h
      have hmem : sel ∈ freelist.nodes := List.get?_mem hget
      have h1 := cover_eraseP_of_mem x sel sel freelist.nodes hmem (same_interval_self sel)
      rw [cover_append, remove_block_from_freelist_nodes, cover_append]
      have h3 : (if covers x { sel with pid := pid, end_ := sel.start + blocksize - 1 }
            then 1 else 0) ≤ (if covers x sel then 1 else 0) := by
        simp only [covers, Bool.and_eq_true, decide_eq_true_eq]
        split_ifs <;> omega
      unfold list_add_ascending_by_address
      simp only at h1 hA ⊢
      omega

theorem well_formed_allocate_memory (freelist alloclist freelist1 alloclist1 : list_t)
    (pid blocksize policy : Int) (hbs : 1 ≤ blocksize)
    (h : allocate_memory freelist alloclist pid blocksize policy
      = some (freelist1, alloclist1))
    (hwf : well_formed (freelist.nodes ++ alloclist.nodes)) :
    well_formed (freelist1.nodes ++ alloclist1.nodes) := by
  unfold allocate_memory at h
  split at h
  · cases h; exact hwf
  · next i sel hsel =>
    obtain ⟨hget, hq⟩ := selected_block_sound freelist blocksize policy i sel hsel
    have hA : ∀ b ∈ (list_add_ascending_by_address alloclist
        { sel with pid := pid, end_ := sel.start + blocksize - 1 }).nodes,
        b.start ≤ b.end_ := by
      intro b hb
      rcases List.mem_cons.mp ((add_ascending_subperm _ _ _).subset hb) with rfl | hb
      · show sel.start ≤ sel.start + blocksize - 1
        omega
      · exact hwf b (List.mem_append_right _ hb)
    simp only at h
    split at h
    · next hfrag =>
      have hfrag1 : sel.start + blocksize - 1 < sel.end_ := hfrag
      split at h
      · cases h
      · next freelist2 hadd =>
        cases h
        intro b hb
        rcases List.mem_append.mp hb with hb | hb
        · rw [remove_block_from_freelist_nodes] at hb
          have hb2 := (list_add_to_freelist_subperm _ _ _ _ hadd).subset
            (List.mem_of_mem_eraseP hb)
          rcases List.mem_cons.mp hb2 with rfl | hb3
          · show sel.start + blocksize - 1 + 1 ≤ sel.end_
            omega
          · rcases List.mem_or_eq_of_mem_set hb3 with hb4 | rfl
            · exact hwf b (List.mem_append_left _ hb4)
            · show sel.start + blocksize - 1 + 1 ≤ sel.end_
              omega
        · exact hA b hb
    · cases h
      intro b hb
      rcases List.mem_append.mp hb with hb | hb
      · rw [remove_block_from_freelist_nodes] at hb
        exact hwf b (List.mem_append_left _ (List.mem_of_mem_eraseP hb))
      · exact hA b hb

theorem deallocate_memory_nodes (alloclist freelist alloclist1 freelist1 : list_t)
    (pid policy : Int)
    (h : deallocate_memory alloclist freelist pid policy = some (alloclist1, freelist1)) :
    (alloclist1 = alloclist ∧ freelist1 = freelist) ∨
    ∃ k blk, alloclist.nodes.get? k = some blk ∧
      alloclist1.nodes = alloclist.nodes.eraseIdx k ∧
      List.Subperm freelist1.nodes ({ blk with pid := 0 } :: freelist.nodes) := by
  unfold deallocate_memory at h
  simp only at h
  split at h
  · cases h; exact Or.inl ⟨rfl, rfl⟩
  · next blk hget =>
    split at h
    · cases h
    · next fl hadd =>
      cases h
      exact Or.inr ⟨_, blk, hget, rfl, list_add_to_freelist_subperm _ _ _ _ hadd⟩

theorem cover_deallocate_memory (alloclist freelist alloclist1 freelist1 : list_t)
    (pid policy : Int)
    (h : deallocate_memory alloclist freelist pid policy = some (alloclist1, freelist1))
    (x : Int) :
    cover x (freelist1.nodes ++ alloclist1.nodes)
      ≤ cover x (freelist.nodes ++ alloclist.nodes) := by
  rcases deallocate_memory_nodes _ _ _ _ _ _ h with ⟨rfl, rfl⟩ | ⟨k, blk, hget, hA, hF⟩
  · exact le_refl _
  · have h1 := cover_le_of_subperm x hF
    have h2 := cover_eraseIdx x alloclist.nodes k blk hget
    have h3 : covers x { blk with pid := 0 } = covers x blk := rfl
    rw [cover_cons, h3] at h1
    rw [cover_append, cover_append, hA]
    omega

theorem well_formed_deallocate_memory (alloclist freelist alloclist1 freelist1 : list_t)
    (pid policy : Int)
    (h : deallocate_memory alloclist freelist pid policy = some (alloclist1, freelist1))
    (hwf : well_formed (freelist.nodes ++ alloclist.nodes)) :
    well_formed (freelist1.nodes ++ alloclist1.nodes) := by
  rcases deallocate_memory_nodes _ _ _ _ _ _ h with ⟨rfl, rfl⟩ | ⟨k, blk, hget, hA, hF⟩
  · exact hwf
  · intro b hb
    rcases List.mem_append.mp hb with hb | hb
    · rcases List.mem_cons.mp (hF.subset hb) with rfl | hb
      · exact hwf blk (List.mem_append_right _ (List.get?_mem hget))
      · exact hwf b (List.mem_append_left _ hb)
    · rw [hA] at hb
      exact hwf b (List.mem_append_right _ ((List.eraseIdx_sublist _ _).subset hb))

theorem cover_list_coalese_nodes (x : Int) (list : list_t) :
    cover x (list_coalese_nodes list).nodes ≤ cover x list.nodes := by
  unfold list_coalese_nodes
  split
  · exact le_refl _
  · next h t heq => rw [heq]; exact cover_coalese_from x t h

theorem well_formed_list_coalese_nodes (list : list_t) (hwf : well_formed list.nodes) :
    well_formed (list_coalese_nodes list).nodes := by
  unfold list_coalese_nodes
  split
  · exact hwf
  · next h t heq => rw [heq] at hwf; exact well_formed_coalese_from t h hwf

theorem cover_coalese_memory (x : Int) (list : list_t) :
    cover x (coalese_memory list).nodes ≤ cover x list.nodes := by
  unfold coalese_memory
  refine (cover_list_coalese_nodes x _).trans ?_
  have := cover_le_of_subperm x (coalese_drain_subperm list.nodes list_alloc)
  simpa [list_alloc] using this

theorem well_formed_coalese_memory (list : list_t) (hwf : well_formed list.nodes) :
    well_formed (coalese_memory list).nodes := by
  unfold coalese_memory
  apply well_formed_list_coalese_nodes
  intro b hb
  have := (coalese_drain_subperm list.nodes list_alloc).subset hb
  simp only [list_alloc, List.append_nil] at this
  exact hwf b this

/-! ### The invariant along a run -/

theorem disjoint_invariant_step (policy : Int) (st st1 : mmu_state) (r : request)
    (hr : request_size_pos r = true) (h : step policy st r = some st1)
    (hinv : disjoint_invariant st) : disjoint_invariant st1 := by
  obtain ⟨hc, hwf⟩ := hinv
  cases r with
  | allocate pid size =>
    have hs : 1 ≤ size := by simpa [request_size_pos] using hr
    obtain ⟨f1, a1⟩ := st1
    have h1 : allocate_memory st.1 st.2 pid size policy = some (f1, a1) := h
    exact ⟨fun x => (cover_allocate_memory _ _ _ _ _ _ _ hs h1 x).trans (hc x),
      well_formed_allocate_memory _ _ _ _ _ _ _ hs h1 hwf⟩
  | deallocate pid =>
    simp only [step] at h
    split at h
    · cases h
    · next a1 f1 hd =>
      cases h
      exact ⟨fun x => (cover_deallocate_memory _ _ _ _ _ _ hd x).trans (hc x),
        well_formed_deallocate_memory _ _ _ _ _ _ hd hwf⟩
  | coalesce =>
    simp only [step] at h
    cases h
    constructor
    · intro x
      have h1 := cover_coalese_memory x st.1
      have h2 := hc x
      simp only [cover_append] at h2 ⊢
      omega
    · intro b hb
      rcases List.mem_append.mp hb with hb | hb
      · exact well_formed_coalese_memory st.1
          (fun d hd => hwf d (List.mem_append_left _ hd)) b hb
      · exact hwf b (List.mem_append_right _ hb)

theorem disjoint_invariant_run (policy : Int) (ops : List request) :
    ∀ (st st1 : mmu_state), (∀ r ∈ ops, request_size_pos r = true) →
      run policy st ops = some st1 → disjoint_invariant st → disjoint_invariant st1 := by
  induction ops with
  | nil => intro st st1 _ h hinv; simp only [run] at h; cases h; exact hinv
  | cons r rs ih =>
    intro st st1 hops h hinv
    simp only [run] at h
    split at h
    · cases h
    · next st2 hstep =>
      exact ih st2 st1 (fun q hq => hops q (List.mem_cons_of_mem _ hq)) h
        (disjoint_invariant_step policy st st2 r (hops r (List.mem_cons_self _ _)) hstep hinv)

theorem disjoint_invariant_initial (N : Int) (hN : 1 ≤ N) :
    disjoint_invariant (initial_state N) := by
  constructor
  · intro x
    simp only [initial_state, list_add_to_front, list_alloc, cover, List.append_nil]
    rw [List.countP_cons]
    simp only [List.countP_nil, zero_add]
    split <;> omega
  · intro b hb
    simp only [initial_state, list_add_to_front, list_alloc, List.append_nil,
      List.mem_singleton] at hb
    subst hb
    show (0 : Int) ≤ N + 0 - 1
    omega

/-- Blocks with `start ≤ end` of which no two contain a common address have intervals
that are pairwise separated. -/
theorem pairwise_of_cover_le_one (l : List block_t) (hc : ∀ x, cover x l ≤ 1)
    (hwf : well_formed l) :
    l.Pairwise (fun a b => a.end_ < b.start ∨ b.end_ < a.start) := by
  induction l with
  | nil => exact List.Pairwise.nil
  | cons a t ih =>
    refine List.Pairwise.cons ?_ (ih ?_ (fun b hb => hwf b (List.mem_cons_of_mem _ hb)))
    · intro b hb
      by_contra hcon
      have ha := hwf a (List.mem_cons_self _ _)
      have hb1 := hwf b (List.mem_cons_of_mem _ hb)
      have h1 := hc (max a.start b.start)
      rw [cover_cons] at h1
      have hca : covers (max a.start b.start) a = true := by
        simp only [covers, Bool.and_eq_true, decide_eq_true_eq]
        omega
      have hcb : covers (max a.start b.start) b = true := by
        simp only [covers, Bool.and_eq_true, decide_eq_true_eq]
        omega
      have hpos : 0 < cover (max a.start b.start) t :=
        List.countP_pos_iff.mpr ⟨b, hb, hcb⟩
      rw [hca] at h1
      simp only [if_true] at h1
      omega
    · intro x
      have := hc x
      rw [cover_cons] at this
      omega

/-! ### Policies 2 and 3 never write through `tail` -/

theorem list_add_to_freelist_defined (freelist : list_t) (b : block_t) (policy : Int)
    (hp : policy ≠ 1) : list_add_to_freelist freelist b policy ≠ none := by
  unfold list_add_to_freelist
  rw [if_neg hp]
  split
  · simp
  · split <;> simp

theorem step_defined (policy : Int) (hp : policy ≠ 1) (st : mmu_state) (r : request) :
    ∃ st1, step policy st r = some st1 := by
  cases r with
  | allocate pid size =>
    simp only [step, allocate_memory]
    split
    · exact ⟨_, rfl⟩
    · split
      · split
        · next hnone => exact absurd hnone (list_add_to_freelist_defined _ _ _ hp)
        · exact ⟨_, rfl⟩
      · exact ⟨_, rfl⟩
  | deallocate pid =>
    simp only [step, deallocate_memory]
    split
    · next hd =>
      split at hd
      · cases hd
      · split at hd
        · next hnone => exact absurd hnone (list_add_to_freelist_defined _ _ _ hp)
        · cases hd
    · exact ⟨_, rfl⟩
  | coalesce => exact ⟨_, rfl⟩

theorem run_defined (policy : Int) (hp : policy ≠ 1) (ops : List request) :
    ∀ st : mmu_state, ∃ st1, run policy st ops = some st1 := by
  induction ops with
  | nil => intro st; exact ⟨st, rfl⟩
  | cons r rs ih =>
    intro st
    obtain ⟨st2, h2⟩ := step_defined policy hp st r
    obtain ⟨st3, h3⟩ := ih st2
    exact ⟨st3, by simp only [run, h2, h3]⟩

/-- No overlap along the runs that have a state: for every partition size `N ≥ 1`, every
policy value and every finite sequence of allocate (size `≥ 1`), deallocate and
coalesce requests run from the initial state, if the run has a state after the last
request then any two distinct nodes of the two lists taken together have separated
intervals (`a.end < b.start` or `b.end < a.start`). Under policies 2 and 3 every
sequence has one. Under policy 1 a request may write through a stale `tail` pointer;
this theorem says nothing about what follows such a write. -/
theorem no_overlap (N : Int) (hN : 1 ≤ N) (policy : Int) (ops : List request)
    (hops : ∀ r ∈ ops, request_size_pos r = true) :
    (policy ≠ 1 → ∃ st, run policy (initial_state N) ops = some st) ∧
    ∀ st, run policy (initial_state N) ops = some st →
      (st.1.nodes ++ st.2.nodes).Pairwise
        (fun a b => a.end_ < b.start ∨ b.end_ < a.start) := by
  refine ⟨fun h => run_defined policy h ops _, ?_⟩
  intro st hrun
  obtain ⟨hc, hwf⟩ := disjoint_invariant_run policy ops _ st hops hrun
    (disjoint_invariant_initial N hN)
  exact pairwise_of_cover_le_one _ hc hwf

/-- The theorem `no_overlap` at a policy-1 run that has a state: partition size 10,
allocate 3 for pid 1, allocate 3 for pid 2, deallocate pid 1. -/
theorem no_overlap_policy_one_example :
    (1 : Int) ≤ 10 ∧
    (∀ r ∈ [request.allocate 1 3, request.allocate 2 3, request.deallocate 1],
      request_size_pos r = true) ∧
    run 1 (initial_state 10)
        [request.allocate 1 3, request.allocate 2 3, request.deallocate 1]
      = some ({ nodes := [{ pid := 0, start := 6, end_ := 9 },
                          { pid := 0, start := 0, end_ := 2 }],
                tail := tail_ptr.node 1, length := 2 },
              { nodes := [{ pid := 2, start := 3, end_ := 5 }],
                tail := tail_ptr.node 0, length := 1 }) ∧
    ([{ pid := 0, start := 6, end_ := 9 }, { pid := 0, start := 0, end_ := 2 }]
        ++ [{ pid := 2, start := 3, end_ := 5 }] : List block_t).Pairwise
      (fun a b => a.end_ < b.start ∨ b.end_ < a.start) :=
  ⟨by decide, by decide, by decide,
    (no_overlap 10 (by decide) 1
      [request.allocate 1 3, request.allocate 2 3, request.deallocate 1] (by decide)).2
      ({ nodes := [{ pid := 0, start := 6, end_ := 9 },
                   { pid := 0, start := 0, end_ := 2 }],
         tail := tail_ptr.node 1, length := 2 },
       { nodes := [{ pid := 2, start := 3, end_ := 5 }],
         tail := tail_ptr.node 0, length := 1 })
      (by decide)⟩

/-! ### Coalescing -/

/-- The first loop of `coalese_memory`, one iteration at a time: `coalese_drain` on the
nodes of `list` is what `while ((blk = list_remove_from_front(list)) != NULL)` computes. -/
theorem coalese_drain_unfold (list temp_list : list_t) :
    coalese_drain list.nodes temp_list =
      match list_remove_from_front list with
      | (none, _) => temp_list
      | (some blk, list1) =>
        coalese_drain list1.nodes (list_add_ascending_by_address temp_list blk) := by
  cases h : list.nodes with
  | nil => simp [list_remove_from_front, h, coalese_drain]
  | cons b rest => simp [list_remove_from_front, h, coalese_drain]


theorem link_after_scan_all_kept (keep : block_t → Bool) (b : block_t) (l : List block_t)
    (h : ∀ c ∈ l, keep c = true) : link_after_scan keep b l = l ++ [b] := by
  induction l with
  | nil => rfl
  | cons c rest ih =>
    simp only [link_after_scan, h c (List.mem_cons_self _ _), if_true, List.cons_append]
    rw [ih (fun d hd => h d (List.mem_cons_of_mem _ hd))]

/-- Inserting a block whose start is above every start already present appends it. -/
theorem list_add_ascending_by_address_append (list : list_t) (b : block_t)
    (h : ∀ c ∈ list.nodes, c.start < b.start) :
    (list_add_ascending_by_address list b).nodes = list.nodes ++ [b] := by
  unfold list_add_ascending_by_address add_ascending
  split
  · next hn => rw [hn]; rfl
  · next c rest hn =>
    rw [hn] at h
    have hc : c.start < b.start := h c (List.mem_cons_self _ _)
    simp only [hc, decide_True, if_true]
    rw [link_after_scan_all_kept]
    · simp [hn]
    · intro d hd
      simpa using h d (List.mem_cons_of_mem _ hd)

theorem link_after_scan_ascending (b : block_t) (l : List block_t)
    (hl : l.Pairwise (fun a c => a.start < c.start))
    (hb : ∀ c ∈ l, c.start ≠ b.start) :
    (link_after_scan (fun c => decide (c.start < b.start)) b l).Pairwise
      (fun a c => a.start < c.start) := by
  induction l with
  | nil => simp [link_after_scan]
  | cons c rest ih =>
    have hc := hb c (List.mem_cons_self _ _)
    obtain ⟨h1, h2⟩ := List.pairwise_cons.mp hl
    by_cases hlt : c.start < b.start
    · simp only [link_after_scan, hlt, decide_True, if_true]
      refine List.Pairwise.cons ?_ (ih h2 (fun d hd => hb d (List.mem_cons_of_mem _ hd)))
      intro d hd
      rcases List.mem_cons.mp ((link_after_scan_perm _ b rest).subset hd) with rfl | hd
      · exact hlt
      · exact h1 d hd
    · simp only [link_after_scan, hlt, decide_False, Bool.false_eq_true, if_false]
      have hbc : b.start < c.start := by omega
      refine List.Pairwise.cons ?_ hl
      intro d hd
      rcases List.mem_cons.mp hd with rfl | hd
      · exact hbc
      · exact lt_trans hbc (h1 d hd)

theorem list_add_ascending_by_address_ascending (list : list_t) (b : block_t)
    (hl : list.nodes.Pairwise (fun a c => a.start < c.start))
    (hb : ∀ c ∈ list.nodes, c.start ≠ b.start) :
    (list_add_ascending_by_address list b).nodes.Pairwise
      (fun a c => a.start < c.start) := by
  unfold list_add_ascending_by_address add_ascending
  split
  · simp
  · next c rest hn =>
    rw [hn] at hl hb
    split
    · next hk =>
      exact link_after_scan_ascending b (c :: rest) hl hb |> fun h => by
        simpa [link_after_scan, hk] using h
    · exact hl

theorem coalese_drain_ascending (l : List block_t) :
    ∀ temp_list : list_t,
      temp_list.nodes.Pairwise (fun a c => a.start < c.start) →
      l.Pairwise (fun a c => a.start ≠ c.start) →
      (∀ b ∈ l, ∀ c ∈ temp_list.nodes, c.start ≠ b.start) →
      (coalese_drain l temp_list).nodes.Pairwise (fun a c => a.start < c.start) := by
  induction l with
  | nil => intro t ht _ _; exact ht
  | cons b rest ih =>
    intro t ht hl hbt
    obtain ⟨h1, h2⟩ := List.pairwise_cons.mp hl
    apply ih _ (list_add_ascending_by_address_ascending t b ht
      (hbt b (List.mem_cons_self _ _))) h2
    intro b1 hb1 c hc
    rcases List.mem_cons.mp ((add_ascending_subperm _ t b).subset hc) with rfl | hc
    · exact h1 b1 hb1
    · exact hbt b1 (List.mem_cons_of_mem _ hb1) c hc

/-- Draining a list that is strictly ascending by start rebuilds it node for node. -/
theorem coalese_drain_of_ascending (l : List block_t) :
    ∀ temp_list : list_t,
      (temp_list.nodes ++ l).Pairwise (fun a c => a.start < c.start) →
      (coalese_drain l temp_list).nodes = temp_list.nodes ++ l := by
  induction l with
  | nil => intro t _; simp [coalese_drain]
  | cons b rest ih =>
    intro t h
    have hlt : ∀ c ∈ t.nodes, c.start < b.start := by
      intro c hc
      exact (List.pairwise_append.mp h).2.2 c hc b (List.mem_cons_self _ _)
    have e := list_add_ascending_by_address_append t b hlt
    simp only [coalese_drain]
    rw [ih, e]
    · simp
    · rw [e]; simpa using h

theorem coalese_from_head (rest : List block_t) :
    ∀ curr : block_t, ∃ e tl, coalese_from curr rest = e :: tl ∧ e.start = curr.start := by
  induction rest with
  | nil => intro curr; exact ⟨curr, [], rfl, rfl⟩
  | cons nxt rest ih =>
    intro curr
    by_cases hadj : curr.end_ + 1 = nxt.start
    · simp only [coalese_from, hadj, if_true]
      exact ih _
    · simp only [coalese_from, hadj, if_false]
      exact ⟨curr, _, rfl, rfl⟩

theorem coalese_from_start_mem (rest : List block_t) :
    ∀ (curr d : block_t), d ∈ coalese_from curr rest →
      ∃ e ∈ curr :: rest, e.start = d.start := by
  induction rest with
  | nil =>
    intro curr d hd
    simp only [coalese_from, List.mem_singleton] at hd
    exact ⟨curr, by simp, by rw [hd]⟩
  | cons nxt rest ih =>
    intro curr d hd
    by_cases hadj : curr.end_ + 1 = nxt.start
    · simp only [coalese_from, hadj, if_true] at hd
      obtain ⟨e, he, hs⟩ := ih _ d hd
      rcases List.mem_cons.mp he with rfl | he
      · exact ⟨curr, by simp, hs⟩
      · exact ⟨e, by simp [he], hs⟩
    · simp only [coalese_from, hadj, if_false] at hd
      rcases List.mem_cons.mp hd with rfl | hd
      · exact ⟨d, by simp, rfl⟩
      · obtain ⟨e, he, hs⟩ := ih nxt d hd
        exact ⟨e, List.mem_cons_of_mem _ he, hs⟩

theorem coalese_from_ascending (rest : List block_t) :
    ∀ curr : block_t, (curr :: rest).Pairwise (fun a c => a.start < c.start) →
      (coalese_from curr rest).Pairwise (fun a c => a.start < c.start) := by
  induction rest with
  | nil => intro curr _; simp [coalese_from]
  | cons nxt rest ih =>
    intro curr h
    obtain ⟨h1, h2⟩ := List.pairwise_cons.mp h
    obtain ⟨h3, h4⟩ := List.pairwise_cons.mp h2
    by_cases hadj : curr.end_ + 1 = nxt.start
    · simp only [coalese_from, hadj, if_true]
      apply ih
      exact List.Pairwise.cons (fun d hd => h1 d (List.mem_cons_of_mem _ hd)) h4
    · simp only [coalese_from, hadj, if_false]
      refine List.Pairwise.cons ?_ (ih nxt h2)
      intro d hd
      obtain ⟨e, he, hs⟩ := coalese_from_start_mem rest nxt d hd
      rw [← hs]
      exact h1 e he

/-- After the sweep no node is followed by an adjacent one. -/
theorem coalese_from_chain (rest : List block_t) :
    ∀ curr : block_t,
      (coalese_from curr rest).Chain' (fun a c => a.end_ + 1 ≠ c.start) := by
  induction rest with
  | nil => intro curr; simp [coalese_from]
  | cons nxt rest ih =>
    intro curr
    by_cases hadj : curr.end_ + 1 = nxt.start
    · simp only [coalese_from, hadj, if_true]
      exact ih _
    · simp only [coalese_from, hadj, if_false]
      obtain ⟨e, tl, heq, hs⟩ := coalese_from_head rest nxt
      have := ih nxt
      rw [heq] at this ⊢
      exact List.Chain'.cons (by rw [hs]; exact hadj) this

/-- The sweep leaves a list without adjacent neighbours as it is. -/
theorem coalese_from_of_chain (rest : List block_t) :
    ∀ curr : block_t, (curr :: rest).Chain' (fun a c => a.end_ + 1 ≠ c.start) →
      coalese_from curr rest = curr :: rest := by
  induction rest with
  | nil => intro curr _; rfl
  | cons nxt rest ih =>
    intro curr h
    obtain ⟨h1, h2⟩ := List.chain'_cons.mp h
    simp only [coalese_from, h1, if_false]
    rw [ih nxt h2]

theorem list_coalese_nodes_of_chain (list : list_t)
    (h : list.nodes.Chain' (fun a c => a.end_ + 1 ≠ c.start)) :
    (list_coalese_nodes list).nodes = list.nodes := by
  unfold list_coalese_nodes
  split
  · rfl
  · next hd t heq => rw [heq] at h ⊢; exact coalese_from_of_chain t hd h

theorem list_coalese_nodes_chain (list : list_t) :
    (list_coalese_nodes list).nodes.Chain' (fun a c => a.end_ + 1 ≠ c.start) := by
  unfold list_coalese_nodes
  split
  · next heq => rw [heq]; exact List.chain'_nil
  · next hd t heq => exact coalese_from_chain t hd

theorem list_coalese_nodes_ascending (list : list_t)
    (h : list.nodes.Pairwise (fun a c => a.start < c.start)) :
    (list_coalese_nodes list).nodes.Pairwise (fun a c => a.start < c.start) := by
  unfold list_coalese_nodes
  split
  · exact h
  · next hd t heq => rw [heq] at h; exact coalese_from_ascending t hd h

/-- On a list whose starts are pairwise different the result of `coalese_memory` is
strictly ascending by start. -/
theorem coalese_memory_ascending (list : list_t)
    (h : list.nodes.Pairwise (fun a c => a.start ≠ c.start)) :
    (coalese_memory list).nodes.Pairwise (fun a c => a.start < c.start) := by
  unfold coalese_memory
  apply list_coalese_nodes_ascending
  apply coalese_drain_ascending _ _ (by simp [list_alloc]) h
  intro b _ c hc
  simp [list_alloc] at hc

/-- Coalescing a list that is strictly ascending by start and has no adjacent
neighbours returns the same nodes. -/
theorem coalese_memory_fixed (list : list_t)
    (hasc : list.nodes.Pairwise (fun a c => a.start < c.start))
    (hch : list.nodes.Chain' (fun a c => a.end_ + 1 ≠ c.start)) :
    (coalese_memory list).nodes = list.nodes := by
  unfold coalese_memory
  have e : (coalese_drain list.nodes list_alloc).nodes = list.nodes := by
    rw [coalese_drain_of_ascending]
    · simp [list_alloc]
    · simpa [list_alloc] using hasc
  rw [list_coalese_nodes_of_chain]
  · exact e
  · rw [e]; exact hch

theorem start_ne_of_disjoint (l : List block_t)
    (hdisj : l.Pairwise (fun a b => a.end_ < b.start ∨ b.end_ < a.start))
    (hwf : well_formed l) : l.Pairwise (fun a c => a.start ≠ c.start) := by
  induction l with
  | nil => exact List.Pairwise.nil
  | cons a t ih =>
    obtain ⟨h1, h2⟩ := List.pairwise_cons.mp hdisj
    refine List.Pairwise.cons ?_ (ih h2 (fun b hb => hwf b (List.mem_cons_of_mem _ hb)))
    intro b hb
    have ha := hwf a (List.mem_cons_self _ _)
    have hb1 := hwf b (List.mem_cons_of_mem _ hb)
    have := h1 b hb
    omega

/-! ### Chains of adjacent blocks -/

theorem add_ascending_length (keep : block_t → Bool) (list : list_t) (b : block_t) :
    (add_ascending keep list b).length = list.length + 1 := by
  unfold add_ascending
  split
  · rfl
  · split <;> rfl

/-- Every insertion of the first loop of `coalese_memory` increments the counter of
`temp_list`, whether or not the node gets linked. -/
theorem coalese_drain_length (l : List block_t) :
    ∀ temp_list : list_t,
      (coalese_drain l temp_list).length = temp_list.length + l.length := by
  induction l with
  | nil => intro t; simp [coalese_drain]
  | cons b rest ih =>
    intro t
    simp only [coalese_drain, List.length_cons]
    rw [ih, list_add_ascending_by_address, add_ascending_length]
    push_cast
    ring

theorem ascending_of_adjacent (l : List block_t) (hwf : well_formed l)
    (hadj : l.Chain' (fun a b => a.end_ + 1 = b.start)) :
    l.Pairwise (fun a c => a.start < c.start) := by
  induction l with
  | nil => exact List.Pairwise.nil
  | cons a t ih =>
    have hwt : well_formed t := fun b hb => hwf b (List.mem_cons_of_mem _ hb)
    have ht := ih hwt (List.Chain'.tail hadj)
    refine List.Pairwise.cons ?_ ht
    intro b hb
    cases t with
    | nil => cases hb
    | cons h t1 =>
      have h1 : a.end_ + 1 = h.start := (List.chain'_cons.mp hadj).1
      have ha := hwf a (List.mem_cons_self _ _)
      rcases List.mem_cons.mp hb with rfl | hb
      · omega
      · have := (List.pairwise_cons.mp ht).1 b hb
        omega

/-- The sweep of `list_coalese_nodes` folds a chain of adjacent blocks into one block
that runs from the start of the first to the end of the last. -/
theorem coalese_from_of_adjacent (rest : List block_t) :
    ∀ curr : block_t, (curr :: rest).Chain' (fun a b => a.end_ + 1 = b.start) →
      coalese_from curr rest
        = [{ curr with end_ := ((curr :: rest).getLast (List.cons_ne_nil _ _)).end_ }] := by
  induction rest with
  | nil => intro curr _; rfl
  | cons nxt rest ih =>
    intro curr h
    obtain ⟨h1, h2⟩ := List.chain'_cons.mp h
    simp only [coalese_from, h1, if_true]
    rw [ih]
    · simp only [List.getLast_cons (List.cons_ne_nil nxt rest)]
      cases rest with
      | nil => rfl
      | cons r rs => simp [List.getLast_cons]
    · cases rest with
      | nil => exact List.chain'_singleton _
      | cons r rs =>
        obtain ⟨h3, h4⟩ := List.chain'_cons.mp h2
        exact List.chain'_cons.mpr ⟨h3, h4⟩

/-! ### Order of the allocated list -/

theorem link_after_scan_by_address_sorted (b : block_t) (l : List block_t)
    (hl : l.Pairwise (fun a c => a.start ≤ c.start)) :
    (link_after_scan (fun c => decide (c.start < b.start)) b l).Pairwise
      (fun a c => a.start ≤ c.start) := by
  induction l with
  | nil => simp [link_after_scan]
  | cons c rest ih =>
    obtain ⟨h1, h2⟩ := List.pairwise_cons.mp hl
    by_cases hlt : c.start < b.start
    · simp only [link_after_scan, hlt, decide_True, if_true]
      refine List.Pairwise.cons ?_ (ih h2)
      intro d hd
      rcases List.mem_cons.mp ((link_after_scan_perm _ b rest).subset hd) with rfl | hd
      · exact le_of_lt hlt
      · exact h1 d hd
    · simp only [link_after_scan, hlt, decide_False, Bool.false_eq_true, if_false]
      have hbc : b.start ≤ c.start := by omega
      refine List.Pairwise.cons ?_ hl
      intro d hd
      rcases List.mem_cons.mp hd with rfl | hd
      · exact hbc
      · exact le_trans hbc (h1 d hd)

theorem list_add_ascending_by_address_sorted (list : list_t) (b : block_t)
    (hl : list.nodes.Pairwise (fun a c => a.start ≤ c.start)) :
    (list_add_ascending_by_address list b).nodes.Pairwise
      (fun a c => a.start ≤ c.start) := by
  unfold list_add_ascending_by_address add_ascending
  split
  · simp
  · next c rest hn =>
    rw [hn] at hl
    split
    · next hk =>
      have := link_after_scan_by_address_sorted b (c :: rest) hl
      simpa [link_after_scan, hk] using this
    · exact hl

/-- The allocated list after `allocate_memory` is the one before, or the one before
with one more call of `list_add_ascending_by_address`. -/
theorem allocate_memory_alloclist (freelist alloclist freelist1 alloclist1 : list_t)
    (pid blocksize policy : Int)
    (h : allocate_memory freelist alloclist pid blocksize policy
      = some (freelist1, alloclist1)) :
    alloclist1 = alloclist ∨
      ∃ new_block, alloclist1 = list_add_ascending_by_address alloclist new_block := by
  unfold allocate_memory at h
  split at h
  · cases h; exact Or.inl rfl
  · simp only at h
    split at h
    · split at h
      · cases h
      · cases h; exact Or.inr ⟨_, rfl⟩
    · cases h; exact Or.inr ⟨_, rfl⟩

/-! ### Size-ordered insertion -/

theorem link_after_scan_eq (keep : block_t → Bool) (b : block_t) (l : List block_t) :
    link_after_scan keep b l = l.takeWhile keep ++ b :: l.dropWhile keep := by
  induction l with
  | nil => rfl
  | cons c rest ih =>
    by_cases hk : keep c = true
    · simp [link_after_scan, hk, List.takeWhile_cons, List.dropWhile_cons, ih]
    · simp [link_after_scan, hk, List.takeWhile_cons, List.dropWhile_cons]

/-- When the loop of `list_add_ascending_by_address` / `_by_blocksize` steps over the
head (or the list is empty), the new node is linked where the loop stops. -/
theorem add_ascending_of_head_kept (keep : block_t → Bool) (list : list_t) (b : block_t)
    (hhead : ∀ c, list.nodes.head? = some c → keep c = true) :
    (add_ascending keep list b).nodes
      = list.nodes.takeWhile keep ++ b :: list.nodes.dropWhile keep := by
  unfold add_ascending
  split
  · next hn => rw [hn]; rfl
  · next c rest hn =>
    have hk : keep c = true := hhead c (by rw [hn]; rfl)
    simp only [hk, if_true]
    rw [hn, link_after_scan_eq]
    simp [List.takeWhile_cons, List.dropWhile_cons, hk]

/-- In a list ascending by `end - start`, everything from the first node the loop of
`list_add_ascending_by_blocksize` does not step over is at least as large as the new
block. -/
theorem dropWhile_smaller_ge (b : block_t) (l : List block_t)
    (hl : l.Pairwise (fun a c => a.end_ - a.start ≤ c.end_ - c.start)) :
    ∀ x ∈ l.dropWhile (fun c => decide (c.end_ - c.start < b.end_ - b.start)),
      b.end_ - b.start ≤ x.end_ - x.start := by
  induction l with
  | nil => intro x hx; simp at hx
  | cons c rest ih =>
    obtain ⟨h1, h2⟩ := List.pairwise_cons.mp hl
    by_cases hlt : c.end_ - c.start < b.end_ - b.start
    · simp only [List.dropWhile_cons, hlt, decide_True, if_true]
      exact ih h2
    · simp only [List.dropWhile_cons, hlt, decide_False, Bool.false_eq_true, if_false]
      intro x hx
      rcases List.mem_cons.mp hx with rfl | hx
      · omega
      · have := h1 x hx
        omega

/-! ### Best fit on a list sorted by size -/

/-- Once `best_fit` points to a node that no remaining node undercuts, the best-fit
loop keeps it to the end. -/
theorem allocate_scan_best_keeps (blocksize : Int) (l : List block_t) :
    ∀ (i j : Nat) (b : block_t) (w : Option (Nat × block_t)),
      (∀ c ∈ l, block_size b ≤ block_size c) →
      allocate_scan blocksize 2 l i (some (j, b)) w = (some (j, b), w) := by
  induction l with
  | nil => intro i j b w _; rfl
  | cons c rest ih =>
    intro i j b w h
    have hc : ¬ block_size c < block_size b := not_lt.mpr (h c (List.mem_cons_self _ _))
    have hrest : ∀ d ∈ rest, block_size b ≤ block_size d :=
      fun d hd => h d (List.mem_cons_of_mem _ hd)
    by_cases hq : blocksize ≤ block_size c
    · simp only [allocate_scan, ge_iff_le, hq, if_true, hc, and_false, if_false]
      simpa using ih (i + 1) j b w hrest
    · simp only [allocate_scan, ge_iff_le, hq, if_false]
      exact ih (i + 1) j b w hrest

/-- On a list ascending by size the best-fit loop and the first-fit loop leave the same
pointer in `best_fit`. -/
theorem allocate_scan_best_eq_first (blocksize : Int) (l : List block_t)
    (hl : l.Pairwise (fun a c => block_size a ≤ block_size c)) :
    ∀ (i : Nat) (w : Option (Nat × block_t)),
      (allocate_scan blocksize 2 l i none w).1 = (allocate_scan blocksize 1 l i none w).1 := by
  induction l with
  | nil => intro i w; rfl
  | cons c rest ih =>
    intro i w
    obtain ⟨h1, h2⟩ := List.pairwise_cons.mp hl
    by_cases hq : blocksize ≤ block_size c
    · have e2 : allocate_scan blocksize 2 (c :: rest) i none w
          = allocate_scan blocksize 2 rest (i + 1) (some (i, c)) w := by
        simp [allocate_scan, hq]
      have e1 : allocate_scan blocksize 1 (c :: rest) i none w = (some (i, c), w) := by
        simp [allocate_scan, hq]
      rw [e2, e1, allocate_scan_best_keeps blocksize rest (i + 1) i c w h1]
    · have e2 : allocate_scan blocksize 2 (c :: rest) i none w
          = allocate_scan blocksize 2 rest (i + 1) none w := by
        simp [allocate_scan, hq]
      have e1 : allocate_scan blocksize 1 (c :: rest) i none w
          = allocate_scan blocksize 1 rest (i + 1) none w := by
        simp [allocate_scan, hq]
      rw [e2, e1]
      exact ih h2 (i + 1) w

/-- The node selected under policy 1, in closed form. -/
theorem selected_block_first (freelist : list_t) (blocksize : Int) :
    selected_block freelist blocksize 1 =
      (freelist.nodes.get?
          (freelist.nodes.findIdx (fun c => decide (blocksize ≤ block_size c)))).map
        (fun c => (freelist.nodes.findIdx (fun c => decide (blocksize ≤ block_size c)), c)) := by
  simp [selected_block, allocate_scan_first]

/-! ### Removal by match -/

theorem remove_block_from_freelist_of_mem (freelist : list_t) (block c : block_t)
    (hc : c ∈ freelist.nodes) (hm : same_interval block c = true) :
    (remove_block_from_freelist freelist block).length = freelist.length - 1 := by
  unfold remove_block_from_freelist
  rw [if_pos (List.any_eq_true.mpr ⟨c, hc, hm⟩)]

theorem remove_block_from_freelist_of_not_mem (freelist : list_t) (block : block_t)
    (h : ∀ c ∈ freelist.nodes, same_interval block c = false) :
    remove_block_from_freelist freelist block = freelist := by
  unfold remove_block_from_freelist
  rw [if_neg]
  intro hany
  obtain ⟨c, hc, hm⟩ := List.any_eq_true.mp hany
  rw [h c hc] at hm
  cases hm

/-! ### What an allocation does to the two lists -/

/-- Under policies 1, 2 and 3 a node is selected as soon as one block qualifies. -/
theorem selected_block_exists (freelist : list_t) (blocksize policy : Int)
    (hp : policy = 1 ∨ policy = 2 ∨ policy = 3)
    (hq : ∃ c ∈ freelist.nodes, blocksize ≤ block_size c) :
    ∃ i sel, selected_block freelist blocksize policy = some (i, sel) := by
  obtain ⟨c, hc, hqc⟩ := hq
  obtain ⟨k, hk⟩ := List.get?_of_mem hc
  rcases hp with rfl | rfl | rfl
  · rw [selected_block_first]
    have hlt : freelist.nodes.findIdx (fun c => decide (blocksize ≤ block_size c))
        < freelist.nodes.length :=
      List.findIdx_lt_length_of_exists ⟨c, hc, by simpa using hqc⟩
    rw [List.get?_eq_get hlt]
    exact ⟨_, _, rfl⟩
  · obtain ⟨-, -, -, h4⟩ := allocate_scan_best blocksize freelist.nodes 0 none none
      (by intro j0 b0 h; cases h)
    obtain ⟨i1, c2, hr, -, -⟩ := h4 k c hk hqc
    exact ⟨i1, c2, by simpa [selected_block] using hr⟩
  · obtain ⟨-, -, -, h4⟩ := allocate_scan_worst blocksize freelist.nodes 0 none none
      (by intro j0 b0 h; cases h)
    obtain ⟨i1, c2, hr, -, -⟩ := h4 k c hk hqc
    exact ⟨i1, c2, by simpa [selected_block] using hr⟩

/-- `list_add_to_back` on a list that is empty or whose `tail` is its last node. -/
theorem list_add_to_back_of_tail_last (list : list_t) (b : block_t)
    (htail : list.nodes = [] ∨ list.tail = tail_ptr.node (list.nodes.length - 1)) :
    list_add_to_back list b
      = some { nodes := list.nodes ++ [b],
               tail := tail_ptr.node list.nodes.length,
               length := list.length + 1 } := by
  unfold list_add_to_back
  split
  · next hn => simp [hn]
  · next c rest hn =>
    rcases htail with he | ht
    · rw [hn] at he; cases he
    · rw [ht]
      simp [hn]

/-- Every policy-1, -2 or -3 insertion into the free list increments `length`, and
afterwards the new block is reachable or every old node still is. -/
theorem list_add_to_freelist_effect (freelist list1 : list_t) (b : block_t) (policy : Int)
    (hp : policy = 1 ∨ policy = 2 ∨ policy = 3)
    (h : list_add_to_freelist freelist b policy = some list1) :
    list1.length = freelist.length + 1 ∧
      (b ∈ list1.nodes ∨ ∀ x ∈ freelist.nodes, x ∈ list1.nodes) := by
  rcases hp with rfl | rfl | rfl
  · simp only [list_add_to_freelist, if_true] at h
    unfold list_add_to_back at h
    split at h
    · cases h; exact ⟨rfl, Or.inl (by simp)⟩
    · split at h
      · split at h
        · cases h; exact ⟨rfl, Or.inl (by simp)⟩
        · cases h
      · cases h
  · simp only [list_add_to_freelist] at h
    norm_num at h
    subst h
    refine ⟨add_ascending_length _ _ _, Or.inr ?_⟩
    intro x hx
    unfold list_add_ascending_by_blocksize add_ascending
    split
    · next hn => rw [hn] at hx; cases hx
    · next c rest hn =>
      rw [hn] at hx
      split
      · rcases List.mem_cons.mp hx with rfl | hx
        · exact List.mem_cons_self _ _
        · exact List.mem_cons_of_mem _
            ((link_after_scan_perm _ b rest).symm.subset (List.mem_cons_of_mem _ hx))
      · exact hx
  · simp only [list_add_to_freelist] at h
    norm_num at h
    subst h
    constructor
    · unfold list_add_descending_by_blocksize
      split <;> rfl
    · exact Or.inl ((list_add_descending_by_blocksize_perm freelist b).symm.subset
        (List.mem_cons_self _ _))

theorem mem_set_self (l : List block_t) (i : Nat) (old v : block_t)
    (h : l.get? i = some old) : v ∈ l.set i v := by
  induction l generalizing i with
  | nil => simp at h
  | cons c rest ih =>
    cases i with
    | zero => simp
    | succ i => simpa using Or.inr (ih i (by simpa using h))

/-- The `length` counters after `allocate_memory` when a node is selected. -/
theorem allocate_memory_lengths (freelist alloclist freelist1 alloclist1 : list_t)
    (pid blocksize policy : Int) (i : Nat) (sel : block_t)
    (hp : policy = 1 ∨ policy = 2 ∨ policy = 3)
    (hsel : selected_block freelist blocksize policy = some (i, sel))
    (h : allocate_memory freelist alloclist pid blocksize policy
      = some (freelist1, alloclist1)) :
    alloclist1.length = alloclist.length + 1 ∧
      (blocksize < block_size sel → freelist1.length = freelist.length) ∧
      (block_size sel = blocksize → freelist1.length = freelist.length - 1) := by
  obtain ⟨hget, hq⟩ := selected_block_sound freelist blocksize policy i sel hsel
  unfold allocate_memory at h
  rw [hsel] at h
  simp only at h
  unfold block_size
  split at h
  · next hfrag =>
    split at h
    · cases h
    · next freelist2 hadd =>
      cases h
      obtain ⟨hlen, hmem⟩ := list_add_to_freelist_effect _ _ _ _ hp hadd
      refine ⟨add_ascending_length _ _ _, fun _ => ?_, fun he => by omega⟩
      have hrm : ∃ c ∈ freelist2.nodes,
          same_interval { sel with start := sel.start + blocksize - 1 + 1 } c = true := by
        rcases hmem with hb | hall
        · exact ⟨_, hb, by simp [same_interval]⟩
        · exact ⟨_, hall _ (mem_set_self freelist.nodes i sel _ hget), by simp [same_interval]⟩
      obtain ⟨c, hc, hm⟩ := hrm
      rw [remove_block_from_freelist_of_mem freelist2 _ c hc hm, hlen]
      simp
  · next hfrag =>
    cases h
    refine ⟨add_ascending_length _ _ _, fun hlt => by omega, fun _ => ?_⟩
    exact remove_block_from_freelist_of_mem freelist sel sel (List.get?_mem hget)
      (same_interval_self sel)

/-- `allocate_memory` returns under policies other than 1, and under policy 1 whenever
`tail` of the free list points to one of its nodes. -/
theorem allocate_memory_defined (freelist alloclist : list_t) (pid blocksize policy : Int)
    (h : policy ≠ 1 ∨ ∃ t, freelist.tail = tail_ptr.node t ∧ t < freelist.nodes.length) :
    ∃ r, allocate_memory freelist alloclist pid blocksize policy = some r := by
  unfold allocate_memory
  split
  · exact ⟨_, rfl⟩
  · next i sel hsel =>
    simp only
    split
    · split
      · next hnone =>
        exfalso
        rcases h with hp | ⟨t, ht, hlt⟩
        · exact list_add_to_freelist_defined _ _ _ hp hnone
        · by_cases hp : policy = 1
          · subst hp
            simp only [list_add_to_freelist, if_true] at hnone
            unfold list_add_to_back at hnone
            simp only [ht, List.length_set, hlt, if_true] at hnone
            split at hnone <;> cases hnone
          · exact list_add_to_freelist_defined _ _ _ hp hnone
      · exact ⟨_, rfl⟩
    · exact ⟨_, rfl⟩

/-! ### The first node with a given interval -/

theorem eraseP_eq_eraseIdx_of_first (p : block_t → Bool) (l : List block_t) :
    ∀ (i : Nat) (v : block_t), l.get? i = some v → p v = true →
      (∀ x ∈ l.take i, p x = false) → l.eraseP p = l.eraseIdx i := by
  induction l with
  | nil => intro i v h; simp at h
  | cons c rest ih =>
    intro i v h hv hpre
    cases i with
    | zero =>
      simp at h; subst h
      simp [hv]
    | succ i =>
      have hc : p c = false := hpre c (by simp)
      have := ih i v (by simpa using h) hv (fun x hx => hpre x (by simp [hx]))
      simp [List.eraseP_cons, hc, this]

theorem eraseP_set_eq_eraseIdx (p : block_t → Bool) (l : List block_t) :
    ∀ (i : Nat) (old v : block_t), l.get? i = some old → p v = true →
      (∀ x ∈ l.take i, p x = false) → (l.set i v).eraseP p = l.eraseIdx i := by
  induction l with
  | nil => intro i old v h; simp at h
  | cons c rest ih =>
    intro i old v h hv hpre
    cases i with
    | zero => simp [hv]
    | succ i =>
      have hc : p c = false := hpre c (by simp)
      have := ih i old v (by simpa using h) hv (fun x hx => hpre x (by simp [hx]))
      simp [List.eraseP_cons, hc, this]

theorem pairwise_take_get (R : block_t → block_t → Prop) (l : List block_t) :
    ∀ (i : Nat) (v : block_t), l.Pairwise R → l.get? i = some v →
      ∀ x ∈ l.take i, R x v := by
  induction l with
  | nil => intro i v _ h; simp at h
  | cons c rest ih =>
    intro i v hl h x hx
    obtain ⟨h1, h2⟩ := List.pairwise_cons.mp hl
    cases i with
    | zero => simp at hx
    | succ i =>
      have hv : rest.get? i = some v := by simpa using h
      rcases List.mem_cons.mp (by simpa using hx) with rfl | hx
      · exact h1 v (List.get?_mem hv)
      · exact ih i v h2 hv x hx

/-- The free list after a policy-1 `allocate_memory`, when its blocks have pairwise
separated intervals, `tail` points to the last node, the requested size is positive
and the node at position `i` is selected. -/
theorem allocate_memory_fifo_nodes (freelist alloclist : list_t) (pid blocksize : Int)
    (i : Nat) (sel : block_t) (hs : 1 ≤ blocksize)
    (hdisj : freelist.nodes.Pairwise (fun a b => a.end_ < b.start ∨ b.end_ < a.start))
    (htail : freelist.tail = tail_ptr.node (freelist.nodes.length - 1))
    (hsel : selected_block freelist blocksize 1 = some (i, sel)) :
    ∃ freelist1 alloclist1,
      allocate_memory freelist alloclist pid blocksize 1 = some (freelist1, alloclist1) ∧
      freelist1.nodes =
        if blocksize < block_size sel then
          freelist.nodes.eraseIdx i ++
            [{ pid := 0, start := sel.start + blocksize, end_ := sel.end_ }]
        else freelist.nodes.eraseIdx i := by
  obtain ⟨hget, hq⟩ := selected_block_sound freelist blocksize 1 i sel hsel
  have hpre := pairwise_take_get _ freelist.nodes i sel hdisj hget
  unfold block_size at hq
  unfold allocate_memory
  rw [hsel]
  simp only
  by_cases hfrag : sel.start + blocksize - 1 < sel.end_
  · have hlt : blocksize < block_size sel := by unfold block_size; omega
    rw [if_pos hfrag, if_pos hlt]
    have hadd := list_add_to_back_of_tail_last
      { nodes := freelist.nodes.set i
          ({ pid := sel.pid, start := sel.start + blocksize - 1 + 1, end_ := sel.end_ } :
            block_t),
        tail := freelist.tail, length := freelist.length }
      { pid := 0, start := sel.start + blocksize - 1 + 1, end_ := sel.end_ }
      (Or.inr (by simpa using htail))
    simp only [list_add_to_freelist, if_true, hadd]
    refine ⟨_, _, rfl, ?_⟩
    rw [remove_block_from_freelist_nodes]
    simp only
    rw [List.eraseP_append_left (a := { sel with start := sel.start + blocksize - 1 + 1 })
      (by simp [same_interval]) _ (mem_set_self freelist.nodes i sel _ hget)]
    rw [eraseP_set_eq_eraseIdx _ _ i sel _ hget (by simp [same_interval])]
    · have e : sel.start + blocksize - 1 + 1 = sel.start + blocksize := by omega
      rw [e]
    · intro x hx
      have := hpre x hx
      simp only [same_interval, Bool.and_eq_false_imp, decide_eq_true_eq, decide_eq_false_iff_not]
      intro h1 h2
      omega
  · have hlt : ¬ blocksize < block_size sel := by unfold block_size; omega
    rw [if_neg hfrag, if_neg hlt]
    refine ⟨_, _, rfl, ?_⟩
    rw [remove_block_from_freelist_nodes]
    apply eraseP_eq_eraseIdx_of_first _ _ i sel hget (same_interval_self sel)
    intro x hx
    have := hpre x hx
    simp only [same_interval, Bool.and_eq_false_imp, decide_eq_true_eq, decide_eq_false_iff_not]
    intro h1 h2
    omega

/-! ### Owner tags -/

theorem coalese_from_pid_mem (rest : List block_t) :
    ∀ (curr d : block_t), d ∈ coalese_from curr rest →
      ∃ e ∈ curr :: rest, e.pid = d.pid := by
  induction rest with
  | nil =>
    intro curr d hd
    simp only [coalese_from, List.mem_singleton] at hd
    exact ⟨curr, by simp, by rw [hd]⟩
  | cons nxt rest ih =>
    intro curr d hd
    by_cases hadj : curr.end_ + 1 = nxt.start
    · simp only [coalese_from, hadj, if_true] at hd
      obtain ⟨e, he, hs⟩ := ih _ d hd
      rcases List.mem_cons.mp he with rfl | he
      · exact ⟨curr, by simp, hs⟩
      · exact ⟨e, by simp [he], hs⟩
    · simp only [coalese_from, hadj, if_false] at hd
      rcases List.mem_cons.mp hd with rfl | hd
      · exact ⟨d, by simp, rfl⟩
      · obtain ⟨e, he, hs⟩ := ih nxt d hd
        exact ⟨e, List.mem_cons_of_mem _ he, hs⟩

theorem coalese_memory_pid (list : list_t) (h : ∀ b ∈ list.nodes, b.pid = 0) :
    ∀ b ∈ (coalese_memory list).nodes, b.pid = 0 := by
  have hd : ∀ b ∈ (coalese_drain list.nodes list_alloc).nodes, b.pid = 0 := by
    intro b hb
    have := (coalese_drain_subperm list.nodes list_alloc).subset hb
    simp only [list_alloc, List.append_nil] at this
    exact h b this
  intro b hb
  unfold coalese_memory list_coalese_nodes at hb
  split at hb
  · exact hd b hb
  · next hh t heq =>
    obtain ⟨e, he, hs⟩ := coalese_from_pid_mem t hh b hb
    rw [← hs]
    exact hd e (by rw [heq]; exact he)

/-- After `allocate_memory` every node of the free list holds a block that was there
before or has owner 0, and every node of the allocated list holds a block that was
there before or has the requesting pid. -/
theorem allocate_memory_pids (freelist alloclist freelist1 alloclist1 : list_t)
    (pid blocksize policy : Int)
    (h : allocate_memory freelist alloclist pid blocksize policy
      = some (freelist1, alloclist1)) :
    (∀ b ∈ freelist1.nodes, b ∈ freelist.nodes ∨
        ∃ c ∈ freelist.nodes, b.pid = c.pid ∨ b.pid = 0) ∧
      (∀ b ∈ alloclist1.nodes, b ∈ alloclist.nodes ∨ b.pid = pid) := by
  unfold allocate_memory at h
  split at h
  · cases h; exact ⟨fun b hb => Or.inl hb, fun b hb => Or.inl hb⟩
  · next i sel hsel =>
    obtain ⟨hget, -⟩ := selected_block_sound freelist blocksize policy i sel hsel
    have hselmem : sel ∈ freelist.nodes := List.get?_mem hget
    have hA : ∀ b ∈ (list_add_ascending_by_address alloclist
        { sel with pid := pid, end_ := sel.start + blocksize - 1 }).nodes,
        b ∈ alloclist.nodes ∨ b.pid = pid := by
      intro b hb
      rcases List.mem_cons.mp ((add_ascending_subperm _ _ _).subset hb) with rfl | hb
      · exact Or.inr rfl
      · exact Or.inl hb
    simp only at h
    split at h
    · split at h
      · cases h
      · next freelist2 hadd =>
        cases h
        refine ⟨?_, hA⟩
        intro b hb
        rw [remove_block_from_freelist_nodes] at hb
        have hb2 := (list_add_to_freelist_subperm _ _ _ _ hadd).subset
          (List.mem_of_mem_eraseP hb)
        rcases List.mem_cons.mp hb2 with rfl | hb3
        · exact Or.inr ⟨sel, hselmem, Or.inr rfl⟩
        · rcases List.mem_or_eq_of_mem_set hb3 with hb4 | rfl
          · exact Or.inl hb4
          · exact Or.inr ⟨sel, hselmem, Or.inl rfl⟩
    · cases h
      refine ⟨?_, hA⟩
      intro b hb
      rw [remove_block_from_freelist_nodes] at hb
      exact Or.inl (List.mem_of_mem_eraseP hb)

/-! ## The claims of the specification -/

/-- C1. Conservation fails on the first best-fit allocation that splits a block: from
the initial state of a partition of size 10, `allocate_memory` for pid 1 and size 3
under policy 2 leaves an empty free list and one allocated block `[0, 2]`, so the block
sizes add up to 3 and not to 10. The remainder `[3, 9]` is handed to
`list_add_ascending_by_blocksize`, which does not link a node that belongs before the
head, and the rewritten selected node is then removed. -/
theorem conservation_broken_by_best_fit_split :
    run 2 (initial_state 10) [request.allocate 1 3]
      = some ({ nodes := [], tail := tail_ptr.freed, length := 1 },
              { nodes := [{ pid := 1, start := 0, end_ := 2 }],
                tail := tail_ptr.node 0, length := 1 }) ∧
    total_size [] + total_size [{ pid := 1, start := 0, end_ := 2 }] = 3 := by
  decide

/-- C2. No overlap is not established for every run: on a partition of size 10 under
policy 1 the requests allocate 5 for pid 1, allocate 5 for pid 2, deallocate 1,
deallocate 2, coalesce (all sizes `≥ 1`) leave the free list `[0,9]` with `tail` still
on the node that `list_coalese_nodes` absorbed and freed. The next request, allocate 1
for pid 3, rewrites the selected block to `[1,9]` and appends the fragment `[1,9]` with
`list->tail->next = new_node` in `list_add_to_back`: a write through the freed node.
The run has no state after that request. -/
theorem stale_tail_run_has_no_state :
    (∀ r ∈ [request.allocate 1 5, request.allocate 2 5, request.deallocate 1,
            request.deallocate 2, request.coalesce, request.allocate 3 1],
      request_size_pos r = true) ∧
    run 1 (initial_state 10)
        [request.allocate 1 5, request.allocate 2 5, request.deallocate 1,
         request.deallocate 2, request.coalesce]
      = some ({ nodes := [{ pid := 0, start := 0, end_ := 9 }],
                tail := tail_ptr.freed, length := 1 },
              { nodes := [], tail := tail_ptr.freed, length := 0 }) ∧
    list_add_to_back
        { nodes := [{ pid := 0, start := 1, end_ := 9 }],
          tail := tail_ptr.freed, length := 1 }
        { pid := 0, start := 1, end_ := 9 } = none ∧
    run 1 (initial_state 10)
        [request.allocate 1 5, request.allocate 2 5, request.deallocate 1,
         request.deallocate 2, request.coalesce, request.allocate 3 1]
      = none := by
  decide

/-- C3. Split correctness fails under policy 2 on a free list holding the single block
`[0, 9]`: allocating 3 for pid 1 selects that block (size 10 > 3) and puts `[0, 2]`
into the allocated list, but afterwards the free list has no reachable node: the
remainder `[3, 9]` is not in it, while its `length` counter still says 1. -/
theorem split_fragment_lost_under_best_fit :
    selected_block { nodes := [{ pid := 0, start := 0, end_ := 9 }],
                     tail := tail_ptr.node 0, length := 1 } 3 2
      = some (0, { pid := 0, start := 0, end_ := 9 }) ∧
    allocate_memory { nodes := [{ pid := 0, start := 0, end_ := 9 }],
                      tail := tail_ptr.node 0, length := 1 } list_alloc 1 3 2
      = some ({ nodes := [], tail := tail_ptr.freed, length := 1 },
              { nodes := [{ pid := 1, start := 0, end_ := 2 }],
                tail := tail_ptr.node 0, length := 1 }) := by
  decide

/-- C4 as stated fails: the free list `[0,1], [5,4], [5,9]` (the free list after the
policy-1 run allocate 2, 3, 0, 5 for pids 1 to 4, then deallocate 1, 3, 4 on a partition
of size 10) has pairwise separated intervals, yet one application of `coalese_memory`
gives `[0,1], [5,9], [5,4]` and a second one gives `[0,1], [5,9]`. -/
theorem coalese_memory_not_idempotent :
    (run 1 (initial_state 10)
        [request.allocate 1 2, request.allocate 2 3, request.allocate 3 0,
         request.allocate 4 5, request.deallocate 1, request.deallocate 3,
         request.deallocate 4]).map (fun st => st.1)
      = some { nodes := [{ pid := 0, start := 0, end_ := 1 },
                         { pid := 0, start := 5, end_ := 4 },
                         { pid := 0, start := 5, end_ := 9 }],
               tail := tail_ptr.node 2, length := 3 } ∧
    ([{ pid := 0, start := 0, end_ := 1 }, { pid := 0, start := 5, end_ := 4 },
      { pid := 0, start := 5, end_ := 9 }] : List block_t).Pairwise
      (fun a b => a.end_ < b.start ∨ b.end_ < a.start) ∧
    (coalese_memory
        { nodes := [{ pid := 0, start := 0, end_ := 1 },
                    { pid := 0, start := 5, end_ := 4 },
                    { pid := 0, start := 5, end_ := 9 }],
          tail := tail_ptr.node 2, length := 3 }).nodes
      = [{ pid := 0, start := 0, end_ := 1 }, { pid := 0, start := 5, end_ := 9 },
         { pid := 0, start := 5, end_ := 4 }] ∧
    (coalese_memory (coalese_memory
        { nodes := [{ pid := 0, start := 0, end_ := 1 },
                    { pid := 0, start := 5, end_ := 4 },
                    { pid := 0, start := 5, end_ := 9 }],
          tail := tail_ptr.node 2, length := 3 })).nodes
      = [{ pid := 0, start := 0, end_ := 1 }, { pid := 0, start := 5, end_ := 9 }] := by
  decide

/-- C4 (amended). Coalesce idempotence: for every free list whose blocks have
`start ≤ end` and pairwise separated intervals (in any order), `coalese_memory` applied
to the result of `coalese_memory` returns the same sequence of blocks
(`start`, `end`, owner) as the first application. -/
theorem coalese_memory_idempotent (list : list_t)
    (hwf : well_formed list.nodes)
    (hdisj : list.nodes.Pairwise (fun a b => a.end_ < b.start ∨ b.end_ < a.start)) :
    (coalese_memory (coalese_memory list)).nodes = (coalese_memory list).nodes := by
  apply coalese_memory_fixed
  · exact coalese_memory_ascending list (start_ne_of_disjoint _ hdisj hwf)
  · exact list_coalese_nodes_chain _

/-- C4 (amended) at the free list `[0,499], [500,999]`, which coalesces to `[0,999]`. -/
theorem coalese_memory_idempotent_witness :
    well_formed [{ pid := 0, start := 0, end_ := 499 },
                 { pid := 0, start := 500, end_ := 999 }] ∧
    ([{ pid := 0, start := 0, end_ := 499 }, { pid := 0, start := 500, end_ := 999 }] :
        List block_t).Pairwise (fun a b => a.end_ < b.start ∨ b.end_ < a.start) ∧
    (coalese_memory (coalese_memory
        { nodes := [{ pid := 0, start := 0, end_ := 499 },
                    { pid := 0, start := 500, end_ := 999 }],
          tail := tail_ptr.node 1, length := 2 })).nodes
      = (coalese_memory
        { nodes := [{ pid := 0, start := 0, end_ := 499 },
                    { pid := 0, start := 500, end_ := 999 }],
          tail := tail_ptr.node 1, length := 2 }).nodes :=
  ⟨by unfold well_formed; decide, by decide,
    coalese_memory_idempotent
      { nodes := [{ pid := 0, start := 0, end_ := 499 },
                  { pid := 0, start := 500, end_ := 999 }],
        tail := tail_ptr.node 1, length := 2 }
      (by unfold well_formed; decide) (by decide)⟩

/-- C5. Best-fit law: under policy 2 `allocate_memory` selects the node at position `i`
holding block `c` exactly when `c` has size at least the requested size, no qualifying
block of the free list is smaller than `c`, and every qualifying block of the same
size sits at position `i` or later. -/
theorem best_fit_law (freelist : list_t) (blocksize : Int) (i : Nat) (c : block_t) :
    selected_block freelist blocksize 2 = some (i, c) ↔
      (freelist.nodes.get? i = some c ∧ blocksize ≤ block_size c ∧
        ∀ j c1, freelist.nodes.get? j = some c1 → blocksize ≤ block_size c1 →
          block_size c ≤ block_size c1 ∧ (block_size c1 = block_size c → i ≤ j)) := by
  obtain ⟨-, h2, -, h4⟩ := allocate_scan_best blocksize freelist.nodes 0 none none
    (by intro j0 b0 h; cases h)
  have hsel : selected_block freelist blocksize 2 =
      (allocate_scan blocksize 2 freelist.nodes 0 none none).1 := by
    simp [selected_block]
  rw [hsel]
  have fwd : ∀ i c, (allocate_scan blocksize 2 freelist.nodes 0 none none).1 = some (i, c) →
      (freelist.nodes.get? i = some c ∧ blocksize ≤ block_size c ∧
        ∀ j c1, freelist.nodes.get? j = some c1 → blocksize ≤ block_size c1 →
          block_size c ≤ block_size c1 ∧ (block_size c1 = block_size c → i ≤ j)) := by
    intro i c h
    rcases h2 with h2 | ⟨k, d, h2, hk, hd⟩
    · rw [h2] at h; cases h
    · rw [h2] at h
      simp only [Option.some.injEq, Prod.mk.injEq, zero_add] at h
      obtain ⟨rfl, rfl⟩ := h
      refine ⟨hk, hd, ?_⟩
      intro j c1 hj hc1
      obtain ⟨i1, c2, hr, hle, htie⟩ := h4 j c1 hj hc1
      rw [h2] at hr
      simp only [Option.some.injEq, Prod.mk.injEq, zero_add] at hr
      obtain ⟨rfl, rfl⟩ := hr
      exact ⟨hle, fun e => by have := htie e; omega⟩
  constructor
  · exact fwd i c
  · rintro ⟨hget, hq, hmin⟩
    obtain ⟨i1, c2, hr, -, -⟩ := h4 i c hget hq
    obtain ⟨hget2, hq2, hmin2⟩ := fwd i1 c2 hr
    obtain ⟨hle1, htie1⟩ := hmin i1 c2 hget2 hq2
    obtain ⟨hle2, htie2⟩ := hmin2 i c hget hq
    have e : block_size c = block_size c2 := le_antisymm hle1 hle2
    have hi : i1 = i := le_antisymm (htie2 e) (htie1 e.symm)
    subst hi
    rw [hget] at hget2
    cases hget2
    exact hr

/-- C5 at the free list `[0,9], [20,24], [30,34], [40,42]` and requested size 4: the
block `[20,24]` at position 1 is selected (size 5, the first of the two smallest
qualifying blocks). -/
theorem best_fit_law_witness :
    selected_block
        { nodes := [{ pid := 0, start := 0, end_ := 9 }, { pid := 0, start := 20, end_ := 24 },
                    { pid := 0, start := 30, end_ := 34 }, { pid := 0, start := 40, end_ := 42 }],
          tail := tail_ptr.node 3, length := 4 } 4 2
      = some (1, { pid := 0, start := 20, end_ := 24 }) ∧
    (4 : Int) ≤ block_size { pid := 0, start := 20, end_ := 24 } :=
  ⟨by decide,
    ((best_fit_law
        { nodes := [{ pid := 0, start := 0, end_ := 9 }, { pid := 0, start := 20, end_ := 24 },
                    { pid := 0, start := 30, end_ := 34 }, { pid := 0, start := 40, end_ := 42 }],
          tail := tail_ptr.node 3, length := 4 } 4 1
        { pid := 0, start := 20, end_ := 24 }).mp (by decide)).2.1⟩

/-- C6. Worst-fit law: under policy 3 `allocate_memory` selects the node at position `i`
holding block `c` exactly when `c` has size at least the requested size, no block of
the free list (qualifying or not) is larger than `c`, and every block of the same size
sits at position `i` or later. -/
theorem worst_fit_law (freelist : list_t) (blocksize : Int) (i : Nat) (c : block_t) :
    selected_block freelist blocksize 3 = some (i, c) ↔
      (freelist.nodes.get? i = some c ∧ blocksize ≤ block_size c ∧
        ∀ j c1, freelist.nodes.get? j = some c1 →
          block_size c1 ≤ block_size c ∧ (block_size c1 = block_size c → i ≤ j)) := by
  obtain ⟨-, h2, -, h4⟩ := allocate_scan_worst blocksize freelist.nodes 0 none none
    (by intro j0 b0 h; cases h)
  have hsel : selected_block freelist blocksize 3 =
      (allocate_scan blocksize 3 freelist.nodes 0 none none).2 := by
    simp [selected_block]
  rw [hsel]
  have fwd : ∀ i c, (allocate_scan blocksize 3 freelist.nodes 0 none none).2 = some (i, c) →
      (freelist.nodes.get? i = some c ∧ blocksize ≤ block_size c ∧
        ∀ j c1, freelist.nodes.get? j = some c1 →
          block_size c1 ≤ block_size c ∧ (block_size c1 = block_size c → i ≤ j)) := by
    intro i c h
    rcases h2 with h2 | ⟨k, d, h2, hk, hd⟩
    · rw [h2] at h; cases h
    · rw [h2] at h
      simp only [Option.some.injEq, Prod.mk.injEq, zero_add] at h
      obtain ⟨rfl, rfl⟩ := h
      refine ⟨hk, hd, ?_⟩
      intro j c1 hj
      by_cases hc1 : blocksize ≤ block_size c1
      · obtain ⟨i1, c2, hr, hle, htie⟩ := h4 j c1 hj hc1
        rw [h2] at hr
        simp only [Option.some.injEq, Prod.mk.injEq, zero_add] at hr
        obtain ⟨rfl, rfl⟩ := hr
        exact ⟨hle, fun e => by have := htie e; omega⟩
      · exact ⟨by omega, fun e => by omega⟩
  constructor
  · exact fwd i c
  · rintro ⟨hget, hq, hmax⟩
    obtain ⟨i1, c2, hr, -, -⟩ := h4 i c hget hq
    obtain ⟨hget2, hq2, hmax2⟩ := fwd i1 c2 hr
    obtain ⟨hle1, htie1⟩ := hmax i1 c2 hget2
    obtain ⟨hle2, htie2⟩ := hmax2 i c hget
    have e : block_size c = block_size c2 := le_antisymm hle2 hle1
    have hi : i1 = i := le_antisymm (htie2 e) (htie1 e.symm)
    subst hi
    rw [hget] at hget2
    cases hget2
    exact hr

/-- C6 at the free list `[0,4], [20,29], [30,39], [40,42]` and requested size 4: the
block `[20,29]` at position 1 is selected (size 10, the first of the two largest). -/
theorem worst_fit_law_witness :
    selected_block
        { nodes := [{ pid := 0, start := 0, end_ := 4 }, { pid := 0, start := 20, end_ := 29 },
                    { pid := 0, start := 30, end_ := 39 }, { pid := 0, start := 40, end_ := 42 }],
          tail := tail_ptr.node 3, length := 4 } 4 3
      = some (1, { pid := 0, start := 20, end_ := 29 }) ∧
    (4 : Int) ≤ block_size { pid := 0, start := 20, end_ := 29 } :=
  ⟨by decide,
    ((worst_fit_law
        { nodes := [{ pid := 0, start := 0, end_ := 4 }, { pid := 0, start := 20, end_ := 29 },
                    { pid := 0, start := 30, end_ := 39 }, { pid := 0, start := 40, end_ := 42 }],
          tail := tail_ptr.node 3, length := 4 } 4 1
        { pid := 0, start := 20, end_ := 29 }).mp (by decide)).2.1⟩

/-- C7. First-available selection: under policy 1 `allocate_memory` selects the node at
position `i` holding block `c` exactly when `c` is the first block of the free list, in
front-to-back order, whose size `end - start + 1` is at least the requested size: `c`
qualifies and no block before position `i` does. -/
theorem first_available_selection (freelist : list_t) (blocksize : Int) (i : Nat)
    (c : block_t) :
    selected_block freelist blocksize 1 = some (i, c) ↔
      (freelist.nodes.get? i = some c ∧ blocksize ≤ block_size c ∧
        ∀ j c1, j < i → freelist.nodes.get? j = some c1 → block_size c1 < blocksize) := by
  have hsel : selected_block freelist blocksize 1 =
      (freelist.nodes.get? (freelist.nodes.findIdx (fun c => decide (blocksize ≤ block_size c)))).map
        (fun c => (freelist.nodes.findIdx (fun c => decide (blocksize ≤ block_size c)), c)) := by
    simp [selected_block, allocate_scan_first]
  rw [hsel]
  constructor
  · intro h
    simp only [Option.map_eq_some', Prod.mk.injEq] at h
    obtain ⟨d, hd, hi, hdc⟩ := h
    subst hdc; subst hi
    refine ⟨hd, ?_, ?_⟩
    · have hd1 : freelist.nodes[freelist.nodes.findIdx
          (fun c => decide (blocksize ≤ block_size c))]? = some d := by
        simpa using hd
      simpa using List.findIdx_of_getElem?_eq_some hd1
    · intro j c1 hj hc1
      have hlen : j < freelist.nodes.length := by
        by_contra hcon
        rw [List.get?_eq_none.mpr (not_lt.mp hcon)] at hc1
        cases hc1
      have := List.not_of_lt_findIdx hj
      rw [List.get?_eq_get hlen] at hc1
      cases hc1
      simpa using this
  · rintro ⟨hget, hq, hfirst⟩
    have hlen : i < freelist.nodes.length := by
      by_contra hcon
      rw [List.get?_eq_none.mpr (not_lt.mp hcon)] at hget
      cases hget
    have hidx : freelist.nodes.findIdx (fun c => decide (blocksize ≤ block_size c)) = i := by
      rw [List.findIdx_eq hlen]
      rw [List.get?_eq_get hlen] at hget
      cases hget
      refine ⟨by simpa using hq, ?_⟩
      intro j hj
      have := hfirst j (freelist.nodes.get ⟨j, lt_trans hj hlen⟩) hj
        (List.get?_eq_get (lt_trans hj hlen))
      simpa using this
    rw [hidx, hget]; rfl

/-- C7 at the free list `[0,2], [20,29], [30,39]` and requested size 4: the block
`[20,29]` at position 1 is selected, the block before it being too small. -/
theorem first_available_selection_witness :
    selected_block
        { nodes := [{ pid := 0, start := 0, end_ := 2 }, { pid := 0, start := 20, end_ := 29 },
                    { pid := 0, start := 30, end_ := 39 }],
          tail := tail_ptr.node 2, length := 3 } 4 1
      = some (1, { pid := 0, start := 20, end_ := 29 }) ∧
    (4 : Int) ≤ block_size { pid := 0, start := 20, end_ := 29 } :=
  ⟨by decide,
    ((first_available_selection
        { nodes := [{ pid := 0, start := 0, end_ := 2 }, { pid := 0, start := 20, end_ := 29 },
                    { pid := 0, start := 30, end_ := 39 }],
          tail := tail_ptr.node 2, length := 3 } 4 1
        { pid := 0, start := 20, end_ := 29 }).mp (by decide)).2.1⟩

/-- C8. Allocation failure: whatever the policy, the pid and the requested size, when
no block of the free list has size at least the requested size (in particular when
the free list is empty) `allocate_memory` returns with both lists exactly as they
were: same nodes, same `tail`, same `length`. -/
theorem allocate_memory_failure (freelist alloclist : list_t) (pid blocksize policy : Int)
    (h : ∀ c ∈ freelist.nodes, block_size c < blocksize) :
    allocate_memory freelist alloclist pid blocksize policy = some (freelist, alloclist) := by
  have hsel : selected_block freelist blocksize policy = none := by
    simp only [selected_block, allocate_scan_none blocksize policy freelist.nodes h]
    split <;> rfl
  simp [allocate_memory, hsel]

/-- C8 at the scenario of the spec: a request of 2000 for pid 2 against a free list
of total capacity 1000, under policy 1. -/
theorem allocate_memory_failure_witness :
    (∀ c ∈ [({ pid := 0, start := 0, end_ := 999 } : block_t)], block_size c < 2000) ∧
    allocate_memory
        { nodes := [{ pid := 0, start := 0, end_ := 999 }], tail := tail_ptr.node 0, length := 1 }
        list_alloc 2 2000 1
      = some ({ nodes := [{ pid := 0, start := 0, end_ := 999 }],
                tail := tail_ptr.node 0, length := 1 }, list_alloc) :=
  ⟨by decide,
    allocate_memory_failure
      { nodes := [{ pid := 0, start := 0, end_ := 999 }], tail := tail_ptr.node 0, length := 1 }
      list_alloc 2 2000 1 (by decide)⟩

/-- C9. Deallocation not found: whatever the policy, when no block of the allocated
list is owned by `pid` (in particular when the list is empty) `deallocate_memory`
returns with both lists exactly as they were: same nodes, same `tail`, same `length`. -/
theorem deallocate_memory_not_found (alloclist freelist : list_t) (pid policy : Int)
    (h : ∀ c ∈ alloclist.nodes, c.pid ≠ pid) :
    deallocate_memory alloclist freelist pid policy = some (alloclist, freelist) := by
  have hk : alloclist.nodes.findIdx (fun c => decide (c.pid = pid)) = alloclist.nodes.length :=
    List.findIdx_eq_length_of_false (fun c hc => by simpa using h c hc)
  simp [deallocate_memory, hk]

/-- C9 at the case of `test_deallocate_memory_edge_cases`: pid 999 against an empty
allocated list, under policy 1. -/
theorem deallocate_memory_not_found_witness :
    (∀ c ∈ list_alloc.nodes, c.pid ≠ 999) ∧
    deallocate_memory list_alloc list_alloc 999 1 = some (list_alloc, list_alloc) :=
  ⟨by decide, deallocate_memory_not_found list_alloc list_alloc 999 1 (by decide)⟩

/-- C10. Deallocation on match fails under policy 2 for the allocated list `[5,6]`
(pid 1) and the free list `[0,4]`: after `deallocate_memory` for pid 1 the allocated
list is empty, but the free list still holds only `[0,4]`: the released block `[5,6]`
is not reachable in it, while its `length` counter went from 1 to 2. -/
theorem deallocated_block_lost_under_best_fit :
    deallocate_memory
        { nodes := [{ pid := 1, start := 5, end_ := 6 }], tail := tail_ptr.node 0, length := 1 }
        { nodes := [{ pid := 0, start := 0, end_ := 4 }], tail := tail_ptr.node 0, length := 1 }
        1 2
      = some ({ nodes := [], tail := tail_ptr.freed, length := 0 },
              { nodes := [{ pid := 0, start := 0, end_ := 4 }],
                tail := tail_ptr.node 0, length := 2 }) := by
  decide

/-- C11. The FIFO scenario of the spec, step by step, on a partition of size 1000 under
policy 1: after `allocate_memory` for pid 1 and size 500 and after `deallocate_memory`
for pid 1 the lists are as the scenario says, but `coalese_memory` on the free list
`[500,999], [0,499]` returns the single block `[500,999]` with `length` 2, not
`[0,999]`: the block `[0,499]` belongs before the head of `temp_list` and
`list_add_ascending_by_address` does not link it. -/
theorem fifo_scenario_coalesce_drops_block :
    run 1 (initial_state 1000) [request.allocate 1 500]
      = some ({ nodes := [{ pid := 0, start := 500, end_ := 999 }],
                tail := tail_ptr.node 0, length := 1 },
              { nodes := [{ pid := 1, start := 0, end_ := 499 }],
                tail := tail_ptr.node 0, length := 1 }) ∧
    run 1 (initial_state 1000) [request.allocate 1 500, request.deallocate 1]
      = some ({ nodes := [{ pid := 0, start := 500, end_ := 999 },
                          { pid := 0, start := 0, end_ := 499 }],
                tail := tail_ptr.node 1, length := 2 },
              { nodes := [], tail := tail_ptr.freed, length := 0 }) ∧
    coalese_memory { nodes := [{ pid := 0, start := 500, end_ := 999 },
                               { pid := 0, start := 0, end_ := 499 }],
                     tail := tail_ptr.node 1, length := 2 }
      = { nodes := [{ pid := 0, start := 500, end_ := 999 }],
          tail := tail_ptr.node 0, length := 2 } := by
  decide

/-- C12. Chains collapse: for every non-empty free list whose blocks have `start ≤ end`
and in which every node is followed by an adjacent one (`left.end + 1 = right.start`;
the list is then ascending by address), `coalese_memory` returns a list with exactly one
node, the block from the start of the first block to the end of the last one (with
the owner tag of the first), and with `length` 1. -/
theorem chains_collapse (list : list_t) (first : block_t) (rest : List block_t)
    (hn : list.nodes = first :: rest) (hwf : well_formed list.nodes)
    (hadj : list.nodes.Chain' (fun a b => a.end_ + 1 = b.start)) :
    (coalese_memory list).nodes
        = [{ first with end_ := ((first :: rest).getLast (List.cons_ne_nil _ _)).end_ }] ∧
      list_length (coalese_memory list) = 1 := by
  unfold coalese_memory
  rw [hn] at hwf hadj ⊢
  have hasc := ascending_of_adjacent (first :: rest) hwf hadj
  have hd : (coalese_drain (first :: rest) list_alloc).nodes = first :: rest := by
    rw [coalese_drain_of_ascending]
    · simp [list_alloc]
    · simpa [list_alloc] using hasc
  have hlen : (coalese_drain (first :: rest) list_alloc).length = (rest.length : Int) + 1 := by
    rw [coalese_drain_length]
    simp [list_alloc]
  have hc := coalese_from_of_adjacent rest first hadj
  unfold list_length list_coalese_nodes
  split
  · next he => rw [hd] at he; cases he
  · next h t he =>
    rw [hd] at he
    cases he
    simp only [hc, hlen, List.length_cons, List.length_singleton, List.length_nil]
    refine ⟨trivial, ?_⟩
    omega

/-- C12 at the case of `test_coalese_memory`: `[0,499], [500,999]` gives `[0,999]`. -/
theorem chains_collapse_witness :
    well_formed [{ pid := 0, start := 0, end_ := 499 },
                 { pid := 0, start := 500, end_ := 999 }] ∧
    (coalese_memory
        { nodes := [{ pid := 0, start := 0, end_ := 499 },
                    { pid := 0, start := 500, end_ := 999 }],
          tail := tail_ptr.node 1, length := 2 }).nodes
      = [{ pid := 0, start := 0, end_ := 999 }] ∧
    list_length (coalese_memory
        { nodes := [{ pid := 0, start := 0, end_ := 499 },
                    { pid := 0, start := 500, end_ := 999 }],
          tail := tail_ptr.node 1, length := 2 }) = 1 :=
  ⟨by unfold well_formed; decide,
    chains_collapse
      { nodes := [{ pid := 0, start := 0, end_ := 499 },
                  { pid := 0, start := 500, end_ := 999 }],
        tail := tail_ptr.node 1, length := 2 }
      { pid := 0, start := 0, end_ := 499 } [{ pid := 0, start := 500, end_ := 999 }]
      rfl (by unfold well_formed; decide) (List.chain'_pair.mpr (by decide))⟩

/-- C13. The result of `coalese_memory` depends on the order of the input: the two
disjoint blocks `[0,499]` and `[500,999]` coalesce to `[0,999]` when listed in this
order and to `[500,999]` alone when listed the other way round. -/
theorem coalesce_depends_on_order :
    ([{ pid := 0, start := 0, end_ := 499 }, { pid := 0, start := 500, end_ := 999 }] :
        List block_t).Perm
      [{ pid := 0, start := 500, end_ := 999 }, { pid := 0, start := 0, end_ := 499 }] ∧
    (coalese_memory
        { nodes := [{ pid := 0, start := 0, end_ := 499 },
                    { pid := 0, start := 500, end_ := 999 }],
          tail := tail_ptr.node 1, length := 2 }).nodes
      = [{ pid := 0, start := 0, end_ := 999 }] ∧
    (coalese_memory
        { nodes := [{ pid := 0, start := 500, end_ := 999 },
                    { pid := 0, start := 0, end_ := 499 }],
          tail := tail_ptr.node 1, length := 2 }).nodes
      = [{ pid := 0, start := 500, end_ := 999 }] :=
  ⟨List.Perm.swap _ _ _, by decide, by decide⟩

/-- C14. `coalese_memory` does not conserve the free set: the free list
`[500,999], [0,499]` has blocks of total size 1000 covering address 0, the list
returned has total size 500 and no block covering address 0. -/
theorem coalesce_loses_free_space :
    total_size [{ pid := 0, start := 500, end_ := 999 },
                { pid := 0, start := 0, end_ := 499 }] = 1000 ∧
    total_size (coalese_memory
        { nodes := [{ pid := 0, start := 500, end_ := 999 },
                    { pid := 0, start := 0, end_ := 499 }],
          tail := tail_ptr.node 1, length := 2 }).nodes = 500 ∧
    cover 0 [{ pid := 0, start := 500, end_ := 999 },
             { pid := 0, start := 0, end_ := 499 }] = 1 ∧
    cover 0 (coalese_memory
        { nodes := [{ pid := 0, start := 500, end_ := 999 },
                    { pid := 0, start := 0, end_ := 499 }],
          tail := tail_ptr.node 1, length := 2 }).nodes = 0 := by
  decide

/-- C15. Allocated list order: when the nodes of a list are ascending by start
(`≤`), they still are after `list_add_ascending_by_address` of any block; hence an
allocated list that is ascending by start is ascending by start after
`allocate_memory` and after `deallocate_memory`, whatever the free list, pid, size
and policy. -/
theorem allocated_order_kept (alloclist : list_t)
    (hasc : alloclist.nodes.Pairwise (fun a c => a.start ≤ c.start)) :
    (∀ b, (list_add_ascending_by_address alloclist b).nodes.Pairwise
        (fun a c => a.start ≤ c.start)) ∧
    (∀ freelist pid blocksize policy freelist1 alloclist1,
      allocate_memory freelist alloclist pid blocksize policy = some (freelist1, alloclist1) →
        alloclist1.nodes.Pairwise (fun a c => a.start ≤ c.start)) ∧
    (∀ freelist pid policy alloclist1 freelist1,
      deallocate_memory alloclist freelist pid policy = some (alloclist1, freelist1) →
        alloclist1.nodes.Pairwise (fun a c => a.start ≤ c.start)) := by
  refine ⟨fun b => list_add_ascending_by_address_sorted alloclist b hasc, ?_, ?_⟩
  · intro freelist pid blocksize policy freelist1 alloclist1 h
    rcases allocate_memory_alloclist _ _ _ _ _ _ _ h with rfl | ⟨nb, rfl⟩
    · exact hasc
    · exact list_add_ascending_by_address_sorted alloclist nb hasc
  · intro freelist pid policy alloclist1 freelist1 h
    rcases deallocate_memory_nodes _ _ _ _ _ _ h with ⟨rfl, -⟩ | ⟨k, blk, -, hA, -⟩
    · exact hasc
    · rw [hA]
      exact List.Pairwise.sublist (List.eraseIdx_sublist _ _) hasc

/-- C15 at the allocated list `[0,4], [10,14]` and the new block `[5,9]`, which is
linked between the two. -/
theorem allocated_order_kept_witness :
    ([{ pid := 1, start := 0, end_ := 4 }, { pid := 2, start := 10, end_ := 14 }] :
        List block_t).Pairwise (fun a c => a.start ≤ c.start) ∧
    (list_add_ascending_by_address
        { nodes := [{ pid := 1, start := 0, end_ := 4 }, { pid := 2, start := 10, end_ := 14 }],
          tail := tail_ptr.node 1, length := 2 }
        { pid := 3, start := 5, end_ := 9 }).nodes
      = [{ pid := 1, start := 0, end_ := 4 }, { pid := 3, start := 5, end_ := 9 },
         { pid := 2, start := 10, end_ := 14 }] ∧
    (list_add_ascending_by_address
        { nodes := [{ pid := 1, start := 0, end_ := 4 }, { pid := 2, start := 10, end_ := 14 }],
          tail := tail_ptr.node 1, length := 2 }
        { pid := 3, start := 5, end_ := 9 }).nodes.Pairwise (fun a c => a.start ≤ c.start) :=
  ⟨by decide, by decide,
    (allocated_order_kept
      { nodes := [{ pid := 1, start := 0, end_ := 4 }, { pid := 2, start := 10, end_ := 14 }],
        tail := tail_ptr.node 1, length := 2 } (by decide)).1
      { pid := 3, start := 5, end_ := 9 }⟩

/-- C16. Address-ordered insertion can drop the block: inserting `[0,499]` into the list
holding `[500,999]` leaves `[500,999]` as the only reachable node, while `length`
goes from 1 to 2. -/
theorem address_insertion_drops_block_before_head :
    list_add_ascending_by_address
        { nodes := [{ pid := 2, start := 500, end_ := 999 }],
          tail := tail_ptr.node 0, length := 1 }
        { pid := 1, start := 0, end_ := 499 }
      = { nodes := [{ pid := 2, start := 500, end_ := 999 }],
          tail := tail_ptr.node 0, length := 2 } := by
  decide

/-- C17. Best-fit order is not kept by a splitting allocation: the free list
`[0,0], [2,6], [10,19]` is ascending by size (1, 5, 10); after `allocate_memory` for
pid 1 and size 8 under policy 2 it is `[0,0], [2,6], [18,19]`, sizes 1, 5, 2. The
selected block was rewritten in place to `[18,19]`, the fragment `[18,19]` was linked
before `[2,6]`, and `remove_block_from_freelist` then removed the fragment, the first
node with that interval. -/
theorem best_fit_order_broken_by_split :
    ([{ pid := 0, start := 0, end_ := 0 }, { pid := 0, start := 2, end_ := 6 },
      { pid := 0, start := 10, end_ := 19 }] : List block_t).Pairwise
      (fun a c => block_size a ≤ block_size c) ∧
    allocate_memory
        { nodes := [{ pid := 0, start := 0, end_ := 0 }, { pid := 0, start := 2, end_ := 6 },
                    { pid := 0, start := 10, end_ := 19 }],
          tail := tail_ptr.node 2, length := 3 }
        list_alloc 1 8 2
      = some ({ nodes := [{ pid := 0, start := 0, end_ := 0 },
                          { pid := 0, start := 2, end_ := 6 },
                          { pid := 0, start := 18, end_ := 19 }],
                tail := tail_ptr.node 2, length := 3 },
              { nodes := [{ pid := 1, start := 10, end_ := 17 }],
                tail := tail_ptr.node 0, length := 1 }) ∧
    ¬ ([{ pid := 0, start := 0, end_ := 0 }, { pid := 0, start := 2, end_ := 6 },
        { pid := 0, start := 18, end_ := 19 }] : List block_t).Pairwise
      (fun a c => block_size a ≤ block_size c) := by
  decide

/-- C18 as stated fails: inserting `[20,24]` (size 5) with
`list_add_ascending_by_blocksize` into the list `[0,0], [10,14]` (sizes 1 and 5) puts
it before the block `[10,14]` of the same size, not after it. -/
theorem best_fit_tie_goes_first :
    ([{ pid := 0, start := 0, end_ := 0 }, { pid := 0, start := 10, end_ := 14 }] :
        List block_t).Pairwise (fun a c => block_size a ≤ block_size c) ∧
    block_size { pid := 0, start := 10, end_ := 14 }
      = block_size { pid := 0, start := 20, end_ := 24 } ∧
    (list_add_ascending_by_blocksize
        { nodes := [{ pid := 0, start := 0, end_ := 0 }, { pid := 0, start := 10, end_ := 14 }],
          tail := tail_ptr.node 1, length := 2 }
        { pid := 0, start := 20, end_ := 24 }).nodes
      = [{ pid := 0, start := 0, end_ := 0 }, { pid := 0, start := 20, end_ := 24 },
         { pid := 0, start := 10, end_ := 14 }] := by
  decide

/-- C18 (amended). Position of a best-fit insertion: for every list ascending by block
size that is empty or whose head block is smaller than the new block `b`, after
`list_add_ascending_by_blocksize` the traversal is the previous one with `b` linked in
at one place: every block before `b` is smaller than `b`, and every block after `b`,
in particular every previously inserted block of the same size, is at least as large. -/
theorem best_fit_insertion_position (list : list_t) (b : block_t)
    (hasc : list.nodes.Pairwise (fun a c => block_size a ≤ block_size c))
    (hhead : ∀ c, list.nodes.head? = some c → block_size c < block_size b) :
    ∃ pre post, list.nodes = pre ++ post ∧
      (list_add_ascending_by_blocksize list b).nodes = pre ++ b :: post ∧
      (∀ x ∈ pre, block_size x < block_size b) ∧
      (∀ x ∈ post, block_size b ≤ block_size x) := by
  refine ⟨list.nodes.takeWhile (fun c => decide (c.end_ - c.start < b.end_ - b.start)),
    list.nodes.dropWhile (fun c => decide (c.end_ - c.start < b.end_ - b.start)),
    (List.takeWhile_append_dropWhile _ _).symm, ?_, ?_, ?_⟩
  · apply add_ascending_of_head_kept
    intro c hc
    have := hhead c hc
    unfold block_size at this
    simp only [decide_eq_true_eq]
    omega
  · intro x hx
    have := List.mem_takeWhile_imp hx
    simp only [decide_eq_true_eq] at this
    unfold block_size
    omega
  · intro x hx
    have hasc1 : list.nodes.Pairwise (fun a c => a.end_ - a.start ≤ c.end_ - c.start) := by
      refine List.Pairwise.imp ?_ hasc
      intro a c h
      unfold block_size at h
      omega
    have := dropWhile_smaller_ge b list.nodes hasc1 x hx
    unfold block_size
    omega

/-- C18 (amended) at the list `[0,0], [10,14]` and the new block `[20,24]`. -/
theorem best_fit_insertion_position_witness :
    ([{ pid := 0, start := 0, end_ := 0 }, { pid := 0, start := 10, end_ := 14 }] :
        List block_t).Pairwise (fun a c => block_size a ≤ block_size c) ∧
    ∃ pre post,
      [{ pid := 0, start := 0, end_ := 0 }, { pid := 0, start := 10, end_ := 14 }]
        = pre ++ post ∧
      (list_add_ascending_by_blocksize
          { nodes := [{ pid := 0, start := 0, end_ := 0 },
                      { pid := 0, start := 10, end_ := 14 }],
            tail := tail_ptr.node 1, length := 2 }
          { pid := 0, start := 20, end_ := 24 }).nodes
        = pre ++ { pid := 0, start := 20, end_ := 24 } :: post ∧
      (∀ x ∈ pre, block_size x < block_size { pid := 0, start := 20, end_ := 24 }) ∧
      (∀ x ∈ post, block_size { pid := 0, start := 20, end_ := 24 } ≤ block_size x) :=
  ⟨by decide,
    best_fit_insertion_position
      { nodes := [{ pid := 0, start := 0, end_ := 0 }, { pid := 0, start := 10, end_ := 14 }],
        tail := tail_ptr.node 1, length := 2 }
      { pid := 0, start := 20, end_ := 24 } (by decide)
      (by intro c hc; cases hc; decide)⟩

/-- C19. Worst-fit order is not kept: the free list holding `[0,3]` (size 4) is
descending by size; `list_add_to_freelist` of `[10,14]` (size 5) under policy 3 gives
`[0,3], [10,14]`, where the larger block comes second. The loop of
`list_add_descending_by_blocksize` compares `end - start + 1` of the node with
`end - start` of the new block, so it steps over a node that is smaller by one. -/
theorem worst_fit_order_broken :
    list_add_to_freelist
        { nodes := [{ pid := 0, start := 0, end_ := 3 }], tail := tail_ptr.node 0, length := 1 }
        { pid := 0, start := 10, end_ := 14 } 3
      = some { nodes := [{ pid := 0, start := 0, end_ := 3 },
                         { pid := 0, start := 10, end_ := 14 }],
               tail := tail_ptr.node 1, length := 2 } ∧
    ¬ ([{ pid := 0, start := 0, end_ := 3 }, { pid := 0, start := 10, end_ := 14 }] :
        List block_t).Pairwise (fun a c => block_size c ≤ block_size a) := by
  decide

/-- C20. FIFO insertion appends: for every free list that is empty or whose `tail`
points to its last node, and every block `b`, `list_add_to_freelist` under policy 1
returns the previous nodes followed by `b`, with `tail` on the new node and `length`
increased by 1; on the empty list of `list_alloc` the result has `length` 1 and `b`
as its only (head) block. -/
theorem fifo_insertion_appends (freelist : list_t) (b : block_t)
    (htail : freelist.nodes = [] ∨
      freelist.tail = tail_ptr.node (freelist.nodes.length - 1)) :
    list_add_to_freelist freelist b 1
        = some { nodes := freelist.nodes ++ [b],
                 tail := tail_ptr.node freelist.nodes.length,
                 length := freelist.length + 1 } ∧
      list_add_to_freelist list_alloc b 1
        = some { nodes := [b], tail := tail_ptr.node 0, length := 1 } := by
  refine ⟨?_, by simp [list_add_to_freelist, list_add_to_back, list_alloc]⟩
  simp only [list_add_to_freelist, if_true]
  unfold list_add_to_back
  split
  · next hn => simp [hn]
  · next c rest hn =>
    rcases htail with he | ht
    · rw [hn] at he; cases he
    · rw [ht]
      simp [hn]

/-- C20 at the free list `[500,999]` and the block `[0,499]` (the deallocation step of
the FIFO scenario). -/
theorem fifo_insertion_appends_witness :
    (([{ pid := 0, start := 500, end_ := 999 }] : List block_t) = [] ∨
      tail_ptr.node 0 = tail_ptr.node
        (([{ pid := 0, start := 500, end_ := 999 }] : List block_t).length - 1)) ∧
    list_add_to_freelist
        { nodes := [{ pid := 0, start := 500, end_ := 999 }],
          tail := tail_ptr.node 0, length := 1 }
        { pid := 0, start := 0, end_ := 499 } 1
      = some { nodes := [{ pid := 0, start := 500, end_ := 999 },
                         { pid := 0, start := 0, end_ := 499 }],
               tail := tail_ptr.node 1, length := 2 } :=
  ⟨Or.inr rfl,
    (fifo_insertion_appends
      { nodes := [{ pid := 0, start := 500, end_ := 999 }],
        tail := tail_ptr.node 0, length := 1 }
      { pid := 0, start := 0, end_ := 499 } (Or.inr rfl)).1⟩

/-- C21. Removal by match: if some block of the free list has the `start` and `end` of
the target, `remove_block_from_freelist` removes the first such block, keeps all other
blocks in their order and decrements `length` by exactly 1; if no block matches, the
list is returned as it was (nodes, `tail` and `length`). -/
theorem removal_by_match (freelist : list_t) (block : block_t) :
    ((∃ c ∈ freelist.nodes, c.start = block.start ∧ c.end_ = block.end_) →
      ∃ pre c post, freelist.nodes = pre ++ c :: post ∧
        (c.start = block.start ∧ c.end_ = block.end_) ∧
        (∀ x ∈ pre, ¬ (x.start = block.start ∧ x.end_ = block.end_)) ∧
        (remove_block_from_freelist freelist block).nodes = pre ++ post ∧
        list_length (remove_block_from_freelist freelist block)
          = list_length freelist - 1) ∧
    ((∀ c ∈ freelist.nodes, ¬ (c.start = block.start ∧ c.end_ = block.end_)) →
      remove_block_from_freelist freelist block = freelist) := by
  constructor
  · rintro ⟨c, hc, hcs, hce⟩
    have hm : same_interval block c = true := by simp [same_interval, hcs, hce]
    obtain ⟨a, pre, post, hpre, hpa, hl, her⟩ := List.exists_of_eraseP hc hm
    refine ⟨pre, a, post, hl, ?_, ?_, ?_, ?_⟩
    · simpa [same_interval] using hpa
    · intro x hx hxm
      exact hpre x hx (by simp [same_interval, hxm.1, hxm.2])
    · rw [remove_block_from_freelist_nodes, her]
    · exact remove_block_from_freelist_of_mem freelist block c hc hm
  · intro h
    apply remove_block_from_freelist_of_not_mem
    intro c hc
    have := h c hc
    simp only [same_interval, Bool.and_eq_false_imp, decide_eq_true_eq,
      decide_eq_false_iff_not]
    intro h1 h2
    exact this ⟨h1, h2⟩

/-- C21 at the case of `test_remove_block_from_freelist`: the list holding `[0,499]`
and that block as target. -/
theorem removal_by_match_witness :
    (∃ c ∈ [({ pid := 0, start := 0, end_ := 499 } : block_t)],
      c.start = (0 : Int) ∧ c.end_ = (499 : Int)) ∧
    remove_block_from_freelist
        { nodes := [{ pid := 0, start := 0, end_ := 499 }],
          tail := tail_ptr.node 0, length := 1 }
        { pid := 0, start := 0, end_ := 499 }
      = { nodes := [], tail := tail_ptr.freed, length := 0 } ∧
    ∃ pre c post, [({ pid := 0, start := 0, end_ := 499 } : block_t)] = pre ++ c :: post ∧
      (c.start = (0 : Int) ∧ c.end_ = (499 : Int)) ∧
      (∀ x ∈ pre, ¬ (x.start = (0 : Int) ∧ x.end_ = (499 : Int))) ∧
      (remove_block_from_freelist
          { nodes := [{ pid := 0, start := 0, end_ := 499 }],
            tail := tail_ptr.node 0, length := 1 }
          { pid := 0, start := 0, end_ := 499 }).nodes = pre ++ post ∧
      list_length (remove_block_from_freelist
          { nodes := [{ pid := 0, start := 0, end_ := 499 }],
            tail := tail_ptr.node 0, length := 1 }
          { pid := 0, start := 0, end_ := 499 })
        = list_length { nodes := [{ pid := 0, start := 0, end_ := 499 }],
                        tail := tail_ptr.node 0, length := 1 } - 1 :=
  ⟨⟨_, List.mem_singleton.mpr rfl, rfl, rfl⟩, by decide,
    (removal_by_match
      { nodes := [{ pid := 0, start := 0, end_ := 499 }],
        tail := tail_ptr.node 0, length := 1 }
      { pid := 0, start := 0, end_ := 499 }).1
      ⟨_, List.mem_singleton.mpr rfl, rfl, rfl⟩⟩

/-- C22. The length counter is not accurate in every reachable state: after the run
`allocate pid 1 size 3` from the initial state of a partition of size 10 under policy 2,
`list_length` of the free list is 1 while no node is reachable from its head. -/
theorem length_counter_drifts :
    (run 2 (initial_state 10) [request.allocate 1 3]).map
        (fun st => (list_length st.1, st.1.nodes.length, list_length st.2, st.2.nodes.length))
      = some (1, 0, 1, 1) := by
  decide

/-- C23. Allocation and the length counters: for every policy in {1,2,3}, every pid and
every requested size, if some free block has at least that size then a node is
selected and, whenever `allocate_memory` returns, `length` of the allocated list has
grown by exactly 1, `length` of the free list is unchanged when the selected block is
larger than the requested size and has dropped by exactly 1 when it has exactly that
size. `allocate_memory` returns under policies 2 and 3, and under policy 1 when `tail`
of the free list points to one of its nodes. -/
theorem allocation_length_effect (freelist alloclist : list_t) (pid blocksize policy : Int)
    (hp : policy = 1 ∨ policy = 2 ∨ policy = 3)
    (hq : ∃ c ∈ freelist.nodes, blocksize ≤ block_size c) :
    ∃ i sel, selected_block freelist blocksize policy = some (i, sel) ∧
      ((policy ≠ 1 ∨ ∃ t, freelist.tail = tail_ptr.node t ∧ t < freelist.nodes.length) →
        ∃ r, allocate_memory freelist alloclist pid blocksize policy = some r) ∧
      ∀ freelist1 alloclist1,
        allocate_memory freelist alloclist pid blocksize policy
            = some (freelist1, alloclist1) →
          list_length alloclist1 = list_length alloclist + 1 ∧
          (blocksize < block_size sel → list_length freelist1 = list_length freelist) ∧
          (block_size sel = blocksize →
            list_length freelist1 = list_length freelist - 1) := by
  obtain ⟨i, sel, hsel⟩ := selected_block_exists freelist blocksize policy hp hq
  refine ⟨i, sel, hsel, allocate_memory_defined freelist alloclist pid blocksize policy, ?_⟩
  intro freelist1 alloclist1 h
  exact allocate_memory_lengths _ _ _ _ _ _ _ i sel hp hsel h

/-- C23 at the case of `test_allocate_memory`: 500 from the single free block
`[0,1000]` under policy 1 gives allocated length 1 and free length 1. -/
theorem allocation_length_effect_witness :
    (∃ c ∈ [({ pid := 0, start := 0, end_ := 1000 } : block_t)], (500 : Int) ≤ block_size c) ∧
    (allocate_memory
        { nodes := [{ pid := 0, start := 0, end_ := 1000 }],
          tail := tail_ptr.node 0, length := 1 } list_alloc 1 500 1).map
        (fun r => (list_length r.1, list_length r.2)) = some (1, 1) ∧
    ∃ i sel, selected_block
        { nodes := [{ pid := 0, start := 0, end_ := 1000 }],
          tail := tail_ptr.node 0, length := 1 } 500 1 = some (i, sel) ∧
      (((1 : Int) ≠ 1 ∨ ∃ t, tail_ptr.node 0 = tail_ptr.node t ∧
            t < ([({ pid := 0, start := 0, end_ := 1000 } : block_t)]).length) →
        ∃ r, allocate_memory
          { nodes := [{ pid := 0, start := 0, end_ := 1000 }],
            tail := tail_ptr.node 0, length := 1 } list_alloc 1 500 1 = some r) ∧
      ∀ freelist1 alloclist1,
        allocate_memory
            { nodes := [{ pid := 0, start := 0, end_ := 1000 }],
              tail := tail_ptr.node 0, length := 1 } list_alloc 1 500 1
            = some (freelist1, alloclist1) →
          list_length alloclist1 = list_length list_alloc + 1 ∧
          (500 < block_size sel → list_length freelist1
            = list_length { nodes := [{ pid := 0, start := 0, end_ := 1000 }],
                            tail := tail_ptr.node 0, length := 1 }) ∧
          (block_size sel = 500 → list_length freelist1
            = list_length { nodes := [{ pid := 0, start := 0, end_ := 1000 }],
                            tail := tail_ptr.node 0, length := 1 } - 1) :=
  ⟨⟨_, List.mem_singleton.mpr rfl, by decide⟩, by decide,
    allocation_length_effect
      { nodes := [{ pid := 0, start := 0, end_ := 1000 }],
        tail := tail_ptr.node 0, length := 1 } list_alloc 1 500 1 (Or.inl rfl)
      ⟨_, List.mem_singleton.mpr rfl, by decide⟩⟩

/-- C24. FIFO allocation, free list afterwards: under policy 1, for every free list
whose blocks have pairwise separated intervals and whose `tail` points to its last
node, every pid and every requested size `≥ 1` such that some block qualifies, a node
`[s, e]` is selected, `allocate_memory` returns, and the free list is then the previous
node sequence without the selected node, followed by the remainder `[s+size, e]` with
owner 0 as last node when `e - s + 1 > size`, and by nothing when `e - s + 1 = size`. -/
theorem fifo_allocation_free_list (freelist alloclist : list_t) (pid blocksize : Int)
    (hs : 1 ≤ blocksize)
    (hdisj : freelist.nodes.Pairwise (fun a b => a.end_ < b.start ∨ b.end_ < a.start))
    (htail : freelist.tail = tail_ptr.node (freelist.nodes.length - 1))
    (hq : ∃ c ∈ freelist.nodes, blocksize ≤ block_size c) :
    ∃ i sel freelist1 alloclist1,
      selected_block freelist blocksize 1 = some (i, sel) ∧
      allocate_memory freelist alloclist pid blocksize 1 = some (freelist1, alloclist1) ∧
      freelist1.nodes =
        if blocksize < block_size sel then
          freelist.nodes.eraseIdx i ++
            [{ pid := 0, start := sel.start + blocksize, end_ := sel.end_ }]
        else freelist.nodes.eraseIdx i := by
  obtain ⟨i, sel, hsel⟩ := selected_block_exists freelist blocksize 1 (Or.inl rfl) hq
  obtain ⟨f1, a1, h1, h2⟩ :=
    allocate_memory_fifo_nodes freelist alloclist pid blocksize i sel hs hdisj htail hsel
  exact ⟨i, sel, f1, a1, hsel, h1, h2⟩

/-- C24 at the free list `[0,2], [10,19], [30,39]` and a request of 4 for pid 7: the
node `[10,19]` is selected and the free list becomes `[0,2], [30,39], [14,19]`. -/
theorem fifo_allocation_free_list_witness :
    (allocate_memory
        { nodes := [{ pid := 0, start := 0, end_ := 2 }, { pid := 0, start := 10, end_ := 19 },
                    { pid := 0, start := 30, end_ := 39 }],
          tail := tail_ptr.node 2, length := 3 } list_alloc 7 4 1).map (fun r => r.1.nodes)
      = some [{ pid := 0, start := 0, end_ := 2 }, { pid := 0, start := 30, end_ := 39 },
              { pid := 0, start := 14, end_ := 19 }] ∧
    ∃ i sel freelist1 alloclist1,
      selected_block
          { nodes := [{ pid := 0, start := 0, end_ := 2 }, { pid := 0, start := 10, end_ := 19 },
                      { pid := 0, start := 30, end_ := 39 }],
            tail := tail_ptr.node 2, length := 3 } 4 1 = some (i, sel) ∧
      allocate_memory
          { nodes := [{ pid := 0, start := 0, end_ := 2 }, { pid := 0, start := 10, end_ := 19 },
                      { pid := 0, start := 30, end_ := 39 }],
            tail := tail_ptr.node 2, length := 3 } list_alloc 7 4 1
        = some (freelist1, alloclist1) ∧
      freelist1.nodes =
        if 4 < block_size sel then
          ([{ pid := 0, start := 0, end_ := 2 }, { pid := 0, start := 10, end_ := 19 },
            { pid := 0, start := 30, end_ := 39 }] : List block_t).eraseIdx i ++
            [{ pid := 0, start := sel.start + 4, end_ := sel.end_ }]
        else
          ([{ pid := 0, start := 0, end_ := 2 }, { pid := 0, start := 10, end_ := 19 },
            { pid := 0, start := 30, end_ := 39 }] : List block_t).eraseIdx i :=
  ⟨by decide,
    fifo_allocation_free_list
      { nodes := [{ pid := 0, start := 0, end_ := 2 }, { pid := 0, start := 10, end_ := 19 },
                  { pid := 0, start := 30, end_ := 39 }],
        tail := tail_ptr.node 2, length := 3 } list_alloc 7 4 (by decide) (by decide) rfl
      ⟨{ pid := 0, start := 10, end_ := 19 }, by simp, by decide⟩⟩

/-- C25. Shape of the coalesced list: for every free list whose blocks have `start ≤ end`
and pairwise separated intervals, the node sequence returned by `coalese_memory` is
strictly ascending by start and has no node followed by an adjacent one
(`left.end + 1 = right.start`). -/
theorem coalesced_shape (list : list_t) (hwf : well_formed list.nodes)
    (hdisj : list.nodes.Pairwise (fun a b => a.end_ < b.start ∨ b.end_ < a.start)) :
    (coalese_memory list).nodes.Pairwise (fun a c => a.start < c.start) ∧
      (coalese_memory list).nodes.Chain' (fun a c => a.end_ + 1 ≠ c.start) :=
  ⟨coalese_memory_ascending list (start_ne_of_disjoint _ hdisj hwf),
    list_coalese_nodes_chain _⟩

/-- C25 at the free list `[0,9], [40,49], [30,39]`, which coalesces to
`[0,9], [30,49]`. -/
theorem coalesced_shape_witness :
    well_formed [{ pid := 0, start := 0, end_ := 9 }, { pid := 0, start := 40, end_ := 49 },
                 { pid := 0, start := 30, end_ := 39 }] ∧
    (coalese_memory
        { nodes := [{ pid := 0, start := 0, end_ := 9 }, { pid := 0, start := 40, end_ := 49 },
                    { pid := 0, start := 30, end_ := 39 }],
          tail := tail_ptr.node 2, length := 3 }).nodes
      = [{ pid := 0, start := 0, end_ := 9 }, { pid := 0, start := 30, end_ := 49 }] ∧
    (coalese_memory
        { nodes := [{ pid := 0, start := 0, end_ := 9 }, { pid := 0, start := 40, end_ := 49 },
                    { pid := 0, start := 30, end_ := 39 }],
          tail := tail_ptr.node 2, length := 3 }).nodes.Pairwise
      (fun a c => a.start < c.start) :=
  ⟨by unfold well_formed; decide, by decide,
    (coalesced_shape
      { nodes := [{ pid := 0, start := 0, end_ := 9 }, { pid := 0, start := 40, end_ := 49 },
                  { pid := 0, start := 30, end_ := 39 }],
        tail := tail_ptr.node 2, length := 3 }
      (by unfold well_formed; decide) (by decide)).1⟩

/-- C26. Best fit reduces to first qualifying on a sorted list: for every free list
whose node sequence is ascending (non-decreasing) by size and every requested size,
`allocate_memory` selects under policy 2 the node it selects under policy 1 (same
position, same block, or none in both cases), namely the first node whose block has
at least the requested size. -/
theorem best_fit_is_first_fit_on_sorted (freelist : list_t) (blocksize : Int)
    (hasc : freelist.nodes.Pairwise (fun a c => block_size a ≤ block_size c)) :
    selected_block freelist blocksize 2 = selected_block freelist blocksize 1 ∧
    selected_block freelist blocksize 1 =
      (freelist.nodes.get?
          (freelist.nodes.findIdx (fun c => decide (blocksize ≤ block_size c)))).map
        (fun c => (freelist.nodes.findIdx (fun c => decide (blocksize ≤ block_size c)), c)) := by
  refine ⟨?_, selected_block_first freelist blocksize⟩
  have := allocate_scan_best_eq_first blocksize freelist.nodes hasc 0 none
  simpa [selected_block] using this

/-- C26 at the free list `[0,0], [2,6], [10,19]` (sizes 1, 5, 10) and requested size 4:
both policies select `[2,6]` at position 1. -/
theorem best_fit_is_first_fit_on_sorted_witness :
    ([{ pid := 0, start := 0, end_ := 0 }, { pid := 0, start := 2, end_ := 6 },
      { pid := 0, start := 10, end_ := 19 }] : List block_t).Pairwise
      (fun a c => block_size a ≤ block_size c) ∧
    selected_block
        { nodes := [{ pid := 0, start := 0, end_ := 0 }, { pid := 0, start := 2, end_ := 6 },
                    { pid := 0, start := 10, end_ := 19 }],
          tail := tail_ptr.node 2, length := 3 } 4 1
      = some (1, { pid := 0, start := 2, end_ := 6 }) ∧
    selected_block
        { nodes := [{ pid := 0, start := 0, end_ := 0 }, { pid := 0, start := 2, end_ := 6 },
                    { pid := 0, start := 10, end_ := 19 }],
          tail := tail_ptr.node 2, length := 3 } 4 2
      = selected_block
        { nodes := [{ pid := 0, start := 0, end_ := 0 }, { pid := 0, start := 2, end_ := 6 },
                    { pid := 0, start := 10, end_ := 19 }],
          tail := tail_ptr.node 2, length := 3 } 4 1 :=
  ⟨by decide, by decide,
    (best_fit_is_first_fit_on_sorted
      { nodes := [{ pid := 0, start := 0, end_ := 0 }, { pid := 0, start := 2, end_ := 6 },
                  { pid := 0, start := 10, end_ := 19 }],
        tail := tail_ptr.node 2, length := 3 } 4 (by decide)).1⟩

/-- C27. Free blocks are owned by 0: if every block of the free list has owner 0, then
whatever the policy (1, 2, 3 or any other value) every block reachable in the free
list has owner 0 after `allocate_memory`, after `deallocate_memory` and in the list
returned by `coalese_memory`; and every block of the allocated list after
`allocate_memory` was there before or carries the requesting pid. -/
theorem free_blocks_owned_by_zero (freelist : list_t)
    (hfree : ∀ b ∈ freelist.nodes, b.pid = 0) :
    (∀ alloclist pid blocksize policy freelist1 alloclist1,
      allocate_memory freelist alloclist pid blocksize policy = some (freelist1, alloclist1) →
        (∀ b ∈ freelist1.nodes, b.pid = 0) ∧
        (∀ b ∈ alloclist1.nodes, b ∈ alloclist.nodes ∨ b.pid = pid)) ∧
    (∀ alloclist pid policy alloclist1 freelist1,
      deallocate_memory alloclist freelist pid policy = some (alloclist1, freelist1) →
        ∀ b ∈ freelist1.nodes, b.pid = 0) ∧
    (∀ b ∈ (coalese_memory freelist).nodes, b.pid = 0) := by
  refine ⟨?_, ?_, coalese_memory_pid freelist hfree⟩
  · intro alloclist pid blocksize policy freelist1 alloclist1 h
    obtain ⟨hF, hA⟩ := allocate_memory_pids _ _ _ _ _ _ _ h
    refine ⟨?_, hA⟩
    intro b hb
    rcases hF b hb with hb1 | ⟨c, hc, hpid | hpid⟩
    · exact hfree b hb1
    · rw [hpid]; exact hfree c hc
    · exact hpid
  · intro alloclist pid policy alloclist1 freelist1 h
    rcases deallocate_memory_nodes _ _ _ _ _ _ h with ⟨-, rfl⟩ | ⟨k, blk, -, -, hF⟩
    · exact hfree
    · intro b hb
      rcases List.mem_cons.mp (hF.subset hb) with rfl | hb
      · rfl
      · exact hfree b hb

/-- C27 at the FIFO scenario: 500 for pid 1 from the free list `[0,999]`. -/
theorem free_blocks_owned_by_zero_witness :
    (∀ b ∈ [({ pid := 0, start := 0, end_ := 999 } : block_t)], b.pid = 0) ∧
    allocate_memory
        { nodes := [{ pid := 0, start := 0, end_ := 999 }],
          tail := tail_ptr.node 0, length := 1 } list_alloc 1 500 1
      = some ({ nodes := [{ pid := 0, start := 500, end_ := 999 }],
                tail := tail_ptr.node 0, length := 1 },
              { nodes := [{ pid := 1, start := 0, end_ := 499 }],
                tail := tail_ptr.node 0, length := 1 }) ∧
    (∀ b ∈ [({ pid := 0, start := 500, end_ := 999 } : block_t)], b.pid = 0) :=
  ⟨by decide, by decide,
    ((free_blocks_owned_by_zero
      { nodes := [{ pid := 0, start := 0, end_ := 999 }],
        tail := tail_ptr.node 0, length := 1 } (by decide)).1
      list_alloc 1 500 1
      { nodes := [{ pid := 0, start := 500, end_ := 999 }],
        tail := tail_ptr.node 0, length := 1 }
      { nodes := [{ pid := 1, start := 0, end_ := 499 }],
        tail := tail_ptr.node 0, length := 1 } (by decide)).1⟩

/-- C28. Insertion at the head position of a non-empty address-ordered list: when the
start of the new block `b` is at most the start of the head block,
`list_add_ascending_by_address` leaves the walk from the head as it was (`b` is not
reachable) and increments `length`; when the start of `b` is greater than the start of
the head block, `b` is linked in after the leading blocks whose start is below its own,
immediately before the first block whose start is at least its own (or at the end),
and `length` is incremented. -/
theorem address_insertion_at_head (list : list_t) (c : block_t) (rest : List block_t)
    (b : block_t) (hn : list.nodes = c :: rest) :
    (b.start ≤ c.start →
      (list_add_ascending_by_address list b).nodes = list.nodes ∧
      list_length (list_add_ascending_by_address list b) = list_length list + 1) ∧
    (c.start < b.start →
      ∃ pre post, list.nodes = pre ++ post ∧
        (list_add_ascending_by_address list b).nodes = pre ++ b :: post ∧
        (∀ x ∈ pre, x.start < b.start) ∧
        (∀ x, post.head? = some x → b.start ≤ x.start) ∧
        list_length (list_add_ascending_by_address list b) = list_length list + 1) := by
  have hlen : list_length (list_add_ascending_by_address list b) = list_length list + 1 :=
    add_ascending_length _ list b
  constructor
  · intro hle
    refine ⟨?_, hlen⟩
    have hk : ¬ c.start < b.start := not_lt.mpr hle
    unfold list_add_ascending_by_address add_ascending
    simp [hn, hk]
  · intro hlt
    refine ⟨list.nodes.takeWhile (fun x => decide (x.start < b.start)),
      list.nodes.dropWhile (fun x => decide (x.start < b.start)),
      (List.takeWhile_append_dropWhile _ _).symm, ?_, ?_, ?_, hlen⟩
    · apply add_ascending_of_head_kept
      intro d hd
      rw [hn] at hd
      cases hd
      simpa using hlt
    · intro x hx
      simpa using List.mem_takeWhile_imp hx
    · intro x hx
      have := List.head?_dropWhile_not (fun x => decide (x.start < b.start)) list.nodes
      rw [hx] at this
      simpa using this

/-- C28 at the list holding `[500,999]`: the block `[0,499]` is not linked, the block
`[1000,1499]` is linked at the end. -/
theorem address_insertion_at_head_witness :
    list_add_ascending_by_address
        { nodes := [{ pid := 2, start := 500, end_ := 999 }],
          tail := tail_ptr.node 0, length := 1 }
        { pid := 3, start := 1000, end_ := 1499 }
      = { nodes := [{ pid := 2, start := 500, end_ := 999 },
                    { pid := 3, start := 1000, end_ := 1499 }],
          tail := tail_ptr.node 1, length := 2 } ∧
    (list_add_ascending_by_address
        { nodes := [{ pid := 2, start := 500, end_ := 999 }],
          tail := tail_ptr.node 0, length := 1 }
        { pid := 1, start := 0, end_ := 499 }).nodes
      = [{ pid := 2, start := 500, end_ := 999 }] ∧
    list_length (list_add_ascending_by_address
        { nodes := [{ pid := 2, start := 500, end_ := 999 }],
          tail := tail_ptr.node 0, length := 1 }
        { pid := 1, start := 0, end_ := 499 })
      = list_length { nodes := [{ pid := 2, start := 500, end_ := 999 }],
                      tail := tail_ptr.node 0, length := 1 } + 1 :=
  ⟨by decide,
    (address_insertion_at_head
      { nodes := [{ pid := 2, start := 500, end_ := 999 }],
        tail := tail_ptr.node 0, length := 1 }
      { pid := 2, start := 500, end_ := 999 } []
      { pid := 1, start := 0, end_ := 499 } rfl).1 (by decide)⟩

/-- C29. Best-fit allocation from a single free block: under policy 2, for every free
list that consists of exactly one block `[s, e]` and every requested size below
`e - s + 1` (in particular every size from 1 up), `allocate_memory` returns, after it
no node is reachable from the head of the free list (the remainder `[s+size, e]` is
not in the walk) and the `length` counter of the free list is what it was (1 for a
list whose counter was 1). -/
theorem best_fit_single_block_loses_remainder (freelist alloclist : list_t)
    (blk : block_t) (pid blocksize : Int) (hn : freelist.nodes = [blk])
    (hlt : blocksize < block_size blk) :
    ∃ freelist1 alloclist1,
      allocate_memory freelist alloclist pid blocksize 2 = some (freelist1, alloclist1) ∧
      freelist1.nodes = [] ∧
      list_length freelist1 = list_length freelist ∧
      alloclist1 = list_add_ascending_by_address alloclist
        { pid := pid, start := blk.start, end_ := blk.start + blocksize - 1 } := by
  unfold block_size at hlt
  have hq : blocksize ≤ block_size blk := by unfold block_size; omega
  have hsel : selected_block freelist blocksize 2 = some (0, blk) := by
    simp [selected_block, allocate_scan, hn, hq]
  have hfrag : blk.start + blocksize - 1 < blk.end_ := by omega
  unfold allocate_memory
  rw [hsel]
  simp only [hfrag, if_true, hn, List.set_cons_zero]
  have hadd : list_add_to_freelist
      { nodes := [{ pid := blk.pid, start := blk.start + blocksize - 1 + 1, end_ := blk.end_ }],
        tail := freelist.tail, length := freelist.length }
      { pid := 0, start := blk.start + blocksize - 1 + 1, end_ := blk.end_ } 2
      = some { nodes := [{ pid := blk.pid, start := blk.start + blocksize - 1 + 1,
                           end_ := blk.end_ }],
               tail := freelist.tail, length := freelist.length + 1 } := by
    simp [list_add_to_freelist, list_add_ascending_by_blocksize, add_ascending]
  rw [hadd]
  refine ⟨_, _, rfl, ?_, ?_, rfl⟩
  · simp [remove_block_from_freelist, same_interval]
  · simp [remove_block_from_freelist, same_interval, list_length]

/-- C29 at the first allocation of a best-fit run: 3 for pid 1 from the free list
`[0,9]` with `length` 1. -/
theorem best_fit_single_block_loses_remainder_witness :
    (3 : Int) < block_size { pid := 0, start := 0, end_ := 9 } ∧
    allocate_memory
        { nodes := [{ pid := 0, start := 0, end_ := 9 }], tail := tail_ptr.node 0, length := 1 }
        list_alloc 1 3 2
      = some ({ nodes := [], tail := tail_ptr.freed, length := 1 },
              { nodes := [{ pid := 1, start := 0, end_ := 2 }],
                tail := tail_ptr.node 0, length := 1 }) ∧
    ∃ freelist1 alloclist1,
      allocate_memory
          { nodes := [{ pid := 0, start := 0, end_ := 9 }], tail := tail_ptr.node 0, length := 1 }
          list_alloc 1 3 2 = some (freelist1, alloclist1) ∧
      freelist1.nodes = [] ∧
      list_length freelist1
        = list_length { nodes := [{ pid := 0, start := 0, end_ := 9 }],
                        tail := tail_ptr.node 0, length := 1 } ∧
      alloclist1 = list_add_ascending_by_address list_alloc
        { pid := 1, start := (0 : Int), end_ := (0 : Int) + 3 - 1 } :=
  ⟨by decide, by decide,
    best_fit_single_block_loses_remainder
      { nodes := [{ pid := 0, start := 0, end_ := 9 }], tail := tail_ptr.node 0, length := 1 }
      list_alloc { pid := 0, start := 0, end_ := 9 } 1 3 rfl (by decide)⟩

end Mmu
